import Mathlib

/-!
Verification of the year-grid layout and event-placement core of the planner
repository, as implemented in `src/pages/YearPage.tsx` (the authoritative
variant cited by the specification).

Modelling conventions for the shallow embedding:

* A JavaScript `Date` is modelled by its timestamp in milliseconds since the
  Unix epoch (an `Int`).  The rendering time zone is modelled as a
  fixed-offset zone (offset 0), so the local calendar day of an instant `t`
  is `t / DAY_MS` (floor division, which is `Int`'s `/`).  Calendar-field
  arithmetic (`setDate`, `new Date(y, m, d)`) is modelled with the
  day-number arithmetic of the proleptic Gregorian calendar, following the
  ECMAScript `MakeDay`/`DayFromYear` specification.
* The source's date keys are `YYYY-MM-DD` strings derived from the local
  calendar date of an instant; that string is in bijection with the local
  day number, so the embedding uses the day number itself as the canonical
  key.
* A JavaScript plain object used as a string-keyed record is modelled as a
  function `Int → Option β` (`none` = key absent).
* `Array.prototype.sort` is, per the ECMAScript specification, a stable sort
  consistent with the comparison function; it is modelled by the stable
  `List.insertionSort`.
-/

namespace Planner

/-- One day in milliseconds (`DAY_MS` in the source). -/
def DAY_MS : Int := 24 * 60 * 60 * 1000

/-- `MAX_VISIBLE_BARS` in the source. -/
def MAX_VISIBLE_BARS : Nat := 3

/-- The local calendar day number of an instant, given in milliseconds since
the Unix epoch (days since 1970-01-01). -/
def dayNumber (t : Int) : Int := t / DAY_MS

/-- `startOfDay` in the source: local midnight of the instant's calendar day. -/
def startOfDay (t : Int) : Int := DAY_MS * dayNumber t

/-- `addDays` in the source: calendar-day arithmetic via `setDate`
(in a fixed-offset zone this adds exact multiples of `DAY_MS`). -/
def addDays (t : Int) (days : Int) : Int := t + days * DAY_MS

/-- JavaScript `Date.prototype.getDay`: 0 = Sunday, …, 6 = Saturday.
Day 0 (1970-01-01) was a Thursday, hence the `+ 4`. -/
def getDay (t : Int) : Int := (dayNumber t + 4) % 7

/-- `startOfWeekMonday` in the source. -/
def startOfWeekMonday (t : Int) : Int := addDays t (-((getDay t + 6) % 7))

/-- `endOfWeekMonday` in the source. -/
def endOfWeekMonday (t : Int) : Int := addDays t (6 - (getDay t + 6) % 7)

/-- `daysBetween` in the source:
`Math.floor((startOfDay(end) - startOfDay(start)) / DAY_MS)`. -/
def daysBetween (start «end» : Int) : Int :=
  (startOfDay «end» - startOfDay start) / DAY_MS

/-- `intersectsRange` in the source. -/
def intersectsRange (startA endA startB endB : Int) : Bool :=
  startA ≤ endB && endA ≥ startB

/- A date key: the source uses the `YYYY-MM-DD` string of the local
calendar date, which is in bijection with the local day number; the
embedding uses the day number itself (an `Int`). -/

/-- `formatDateKey` in the source: the canonical key of the instant's local
calendar day. -/
def formatDateKey (t : Int) : Int := dayNumber t

/-- `isValidYear` in the source (the argument is already an integer here,
so `Number.isInteger` is absorbed by the type). -/
def isValidYear (value : Int) : Bool := 1 ≤ value && value ≤ 9999

/-- ECMAScript `DayFromYear`: the day number of Jan 1 of (proleptic
Gregorian) year `y`. -/
def dayFromYear (y : Int) : Int :=
  365 * (y - 1970) + (y - 1969) / 4 - (y - 1901) / 100 + (y - 1601) / 400

/-- Gregorian leap-year predicate (as in ECMAScript `DaysInYear`). -/
def isLeapYear (y : Int) : Bool :=
  (y % 4 == 0 && y % 100 != 0) || y % 400 == 0

/-- Days before the start of 0-based month `m` within a year
(ECMAScript day-within-year month table). -/
def dayWithinYearOfMonth (m : Nat) (leap : Bool) : Int :=
  let l : Int := if leap then 1 else 0
  match m with
  | 0 => 0
  | 1 => 31
  | 2 => 59 + l
  | 3 => 90 + l
  | 4 => 120 + l
  | 5 => 151 + l
  | 6 => 181 + l
  | 7 => 212 + l
  | 8 => 243 + l
  | 9 => 273 + l
  | 10 => 304 + l
  | _ => 334 + l

/-- ECMAScript `MakeDay` for an already-resolved year: day number of
`(y, m, d)` with 0-based month `m` and 1-based day `d`. -/
def jsMakeDay (y : Int) (m : Nat) (d : Int) : Int :=
  dayFromYear y + dayWithinYearOfMonth m (isLeapYear y) + d - 1

/-- `new Date(year, month, day)` at local midnight.  Per ECMAScript
`MakeFullYear`, an integer year in `[0, 99]` is interpreted as
`1900 + year`. -/
def jsNewDate (year : Int) (month : Nat) (day : Int) : Int :=
  let y := if 0 ≤ year ∧ year ≤ 99 then 1900 + year else year
  DAY_MS * jsMakeDay y month day

/-- `CalendarEvent` in the source (the fields the core interprets, plus the
descriptive fields it carries through). -/
structure CalendarEvent where
  id : String
  summary : String
  start : Int
  «end» : Int
  color : String
  isAllDay : Bool := false
  deriving DecidableEq, Repr

/-- `isShortEvent` in the source: duration strictly under 24 hours. -/
def isShortEvent (event : CalendarEvent) : Bool :=
  event.«end» - event.start < DAY_MS

/-- `Placement` in the source. -/
structure Placement where
  event : CalendarEvent
  startIdx : Int
  endIdx : Int
  continuesFromPreviousWeek : Bool
  continuesToNextWeek : Bool
  deriving DecidableEq, Repr

/-- `WeekBar` in the source. -/
structure WeekBar where
  event : CalendarEvent
  lane : Nat
  startIdx : Int
  endIdx : Int
  continuesFromPreviousWeek : Bool
  continuesToNextWeek : Bool
  deriving DecidableEq, Repr

/-- A JavaScript object used as a string-keyed record. -/
def Rec (β : Type) := Int → Option β

/-- `Object.fromEntries(keys.map(k => [k, v]))`. -/
def recInit {β : Type} (keys : List Int) (v : β) : Rec β :=
  fun k => if k ∈ keys then some v else none

/-- Property assignment `r[k] = v`. -/
def recSet {β : Type} (r : Rec β) (k : Int) (v : β) : Rec β :=
  fun k' => if k' = k then some v else r k'

/-- `WeekRenderData` in the source. -/
structure WeekRenderData where
  weekBars : List WeekBar
  shortEventsByDateKey : Rec (List CalendarEvent)
  overflowBarsByDateKey : Rec Int
  activeBarsByDateKey : Rec Int

/-- The body of the per-event loop in `buildWeekRenderData` for long events:
the intersection test and, when it passes, the `Placement` pushed. -/
def placementOf (weekStart weekEnd : Int) (event : CalendarEvent) :
    Option Placement :=
  if intersectsRange (startOfDay event.start) (startOfDay event.«end»)
      weekStart weekEnd then
    some { event := event
           startIdx := max 0 (daysBetween weekStart (startOfDay event.start))
           endIdx := min 6 (daysBetween weekStart (startOfDay event.«end»))
           continuesFromPreviousWeek :=
             decide (startOfDay event.start < weekStart)
           continuesToNextWeek := decide (startOfDay event.«end» > weekEnd) }
  else
    none

/-- One step of the classification loop in `buildWeekRenderData`: a short
event is pushed into its start-day bucket when that key belongs to the week,
a long event goes through the intersection test. -/
def classifyStep (weekStart weekEnd : Int)
    (acc : Rec (List CalendarEvent) × List Placement) (event : CalendarEvent) :
    Rec (List CalendarEvent) × List Placement :=
  if isShortEvent event then
    match acc.1 (formatDateKey event.start) with
    | some bucket =>
      (recSet acc.1 (formatDateKey event.start) (bucket ++ [event]), acc.2)
    | none => acc
  else
    match placementOf weekStart weekEnd event with
    | some p => (acc.1, acc.2 ++ [p])
    | none => acc

/-- The classification loop of `buildWeekRenderData`. -/
def classifyEvents (weekStart weekEnd : Int)
    (shortRec : Rec (List CalendarEvent)) (events : List CalendarEvent) :
    Rec (List CalendarEvent) × List Placement :=
  events.foldl (classifyStep weekStart weekEnd) (shortRec, [])

/-- The placement comparator passed to `placements.sort` in the source
(negative means `a` before `b`). -/
def placementCmp (a b : Placement) : Int :=
  if a.startIdx ≠ b.startIdx then a.startIdx - b.startIdx
  else if a.endIdx - a.startIdx ≠ b.endIdx - b.startIdx then
    (b.endIdx - b.startIdx) - (a.endIdx - a.startIdx)
  else a.event.start - b.event.start

/-- The order induced by `placementCmp` (kept by the stable sort). -/
def placementLe (a b : Placement) : Prop := placementCmp a b ≤ 0

instance : DecidableRel placementLe := fun a b => by
  unfold placementLe; infer_instance

/-- The lane scan in `buildWeekRenderData`: the first index whose recorded
end index is strictly below `startIdx`; `laneEnds.length` when none is. -/
def findLane (laneEnds : List Int) (startIdx : Int) : Nat :=
  match laneEnds with
  | [] => 0
  | e :: rest => if startIdx > e then 0 else findLane rest startIdx + 1

/-- `laneEndIndexes[lane] = v`, after `push(-1)` when `lane` is fresh. -/
def setLaneEnd (laneEnds : List Int) (lane : Nat) (v : Int) : List Int :=
  if lane = laneEnds.length then laneEnds ++ [v] else laneEnds.set lane v

/-- The lane-assignment loop of `buildWeekRenderData`. -/
def assignLanes (laneEnds : List Int) : List Placement → List WeekBar
  | [] => []
  | p :: rest =>
    let lane := findLane laneEnds p.startIdx
    { event := p.event
      lane := lane
      startIdx := p.startIdx
      endIdx := p.endIdx
      continuesFromPreviousWeek := p.continuesFromPreviousWeek
      continuesToNextWeek := p.continuesToNextWeek } ::
      assignLanes (setLaneEnd laneEnds lane p.endIdx) rest

/-- The event-start comparator used to sort each short-event bucket. -/
def eventStartLe (a b : CalendarEvent) : Prop := a.start - b.start ≤ 0

instance : DecidableRel eventStartLe := fun a b => by
  unfold eventStartLe; infer_instance

/-- One step of the per-day loop of `buildWeekRenderData`: record the active
and overflow bar counts for day `dayIdx` and sort that day's short-event
bucket. -/
def countsStep (weekKeys : List Int) (allWeekBars : List WeekBar)
    (acc : Rec Int × Rec Int × Rec (List CalendarEvent)) (dayIdx : Nat) :
    Rec Int × Rec Int × Rec (List CalendarEvent) :=
  (recSet acc.1 (weekKeys.getD dayIdx 0)
    (((allWeekBars.filter (fun bar => bar.startIdx ≤ (dayIdx : Int) &&
      bar.endIdx ≥ (dayIdx : Int))).length : Int)),
   recSet acc.2.1 (weekKeys.getD dayIdx 0)
    (max 0 (((allWeekBars.filter (fun bar => bar.startIdx ≤ (dayIdx : Int) &&
      bar.endIdx ≥ (dayIdx : Int))).length : Int) - (MAX_VISIBLE_BARS : Int))),
   match acc.2.2 (weekKeys.getD dayIdx 0) with
   | some bucket =>
     recSet acc.2.2 (weekKeys.getD dayIdx 0) (bucket.insertionSort eventStartLe)
   | none => acc.2.2)

/-- The bar comparator for the final `weekBars` sort in the source
(`a.lane - b.lane || a.startIdx - b.startIdx || start diff`). -/
def barCmp (a b : WeekBar) : Int :=
  if (a.lane : Int) - (b.lane : Int) ≠ 0 then (a.lane : Int) - (b.lane : Int)
  else if a.startIdx - b.startIdx ≠ 0 then a.startIdx - b.startIdx
  else a.event.start - b.event.start

/-- The order induced by `barCmp`. -/
def barLe (a b : WeekBar) : Prop := barCmp a b ≤ 0

instance : DecidableRel barLe := fun a b => by
  unfold barLe; infer_instance

/-- The long-event placements of a week, in input order (the `placements`
array of the source before sorting). -/
def weekPlacements (week : List Int) (events : List CalendarEvent) :
    List Placement :=
  (classifyEvents (startOfDay (week.getD 0 0)) (startOfDay (week.getD 6 0))
    (recInit (week.map formatDateKey) []) events).2

/-- The lane-assigned bars of a week (`allWeekBars` in the source), before
the visibility cutoff. -/
def allWeekBarsOf (week : List Int) (events : List CalendarEvent) :
    List WeekBar :=
  assignLanes [] ((weekPlacements week events).insertionSort placementLe)

/-- `buildWeekRenderData` in the source. -/
def buildWeekRenderData (week : List Int) (events : List CalendarEvent) :
    WeekRenderData :=
  let weekKeys := week.map formatDateKey
  let weekStart := startOfDay (week.getD 0 0)
  let weekEnd := startOfDay (week.getD 6 0)
  let classified := classifyEvents weekStart weekEnd (recInit weekKeys []) events
  let allWeekBars := assignLanes [] (classified.2.insertionSort placementLe)
  let counts := (List.range weekKeys.length).foldl
    (countsStep weekKeys allWeekBars)
    (recInit weekKeys 0, recInit weekKeys 0, classified.1)
  { weekBars := (allWeekBars.filter
      (fun bar => bar.lane < MAX_VISIBLE_BARS)).insertionSort barLe
    shortEventsByDateKey := counts.2.2
    overflowBarsByDateKey := counts.2.1
    activeBarsByDateKey := counts.1 }

/-- The per-day loop with every implicit JavaScript runtime assumption made
explicit: `weekKeys[dayIdx]` must exist and `shortEventsByDateKey[key].sort`
must find a defined bucket (otherwise the source would throw). -/
def countsLoopChecked (weekKeys : List Int) (allWeekBars : List WeekBar)
    (acc : Rec Int × Rec Int × Rec (List CalendarEvent)) :
    List Nat → Option (Rec Int × Rec Int × Rec (List CalendarEvent))
  | [] => some acc
  | dayIdx :: rest =>
    match weekKeys.get? dayIdx with
    | none => none
    | some key =>
      match acc.2.2 key with
      | none => none
      | some bucket =>
        let activeBars := allWeekBars.filter
          (fun bar => bar.startIdx ≤ (dayIdx : Int) && bar.endIdx ≥ (dayIdx : Int))
        countsLoopChecked weekKeys allWeekBars
          (recSet acc.1 key (activeBars.length : Int),
           recSet acc.2.1 key
             (max 0 ((activeBars.length : Int) - (MAX_VISIBLE_BARS : Int))),
           recSet acc.2.2 key (bucket.insertionSort eventStartLe)) rest

/-- `buildWeekRenderData` with every implicit JavaScript runtime assumption
made explicit (`week[0]` and `week[6]` must exist, and the per-day loop's
accesses must be defined); `none` marks a state in which the source would
throw. -/
def buildWeekRenderDataChecked (week : List Int)
    (events : List CalendarEvent) : Option WeekRenderData :=
  match week.get? 0, week.get? 6 with
  | some w0, some w6 =>
    match countsLoopChecked (week.map formatDateKey)
        (assignLanes [] (((classifyEvents (startOfDay w0) (startOfDay w6)
          (recInit (week.map formatDateKey) []) events).2).insertionSort
            placementLe))
        (recInit (week.map formatDateKey) 0, recInit (week.map formatDateKey) 0,
          (classifyEvents (startOfDay w0) (startOfDay w6)
            (recInit (week.map formatDateKey) []) events).1)
        (List.range (week.map formatDateKey).length) with
    | some counts =>
      some { weekBars := ((assignLanes []
              (((classifyEvents (startOfDay w0) (startOfDay w6)
                (recInit (week.map formatDateKey) []) events).2).insertionSort
                  placementLe)).filter
              (fun bar => bar.lane < MAX_VISIBLE_BARS)).insertionSort barLe
             shortEventsByDateKey := counts.2.2
             overflowBarsByDateKey := counts.2.1
             activeBarsByDateKey := counts.1 }
    | none => none
  | _, _ => none

/-- The `while (cursor <= end)` loop of `buildYearWeeks`, with explicit fuel
(the loop advances `cursor` by 7 days per iteration, so any fuel bound large
enough for the condition to fail first gives the loop's exact behaviour). -/
def buildWeeksLoop (wend : Int) : Nat → Int → List (List Int)
  | 0, _ => []
  | fuel + 1, cursor =>
    if cursor ≤ wend then
      ((List.range 7).map (fun dayOffset => addDays cursor dayOffset)) ::
        buildWeeksLoop wend fuel (addDays cursor 7)
    else
      []

/-- `buildYearWeeks` in the source. -/
def buildYearWeeks (year : Int) : List (List Int) :=
  let start := startOfWeekMonday (jsNewDate year 0 1)
  let wend := endOfWeekMonday (jsNewDate year 11 31)
  buildWeeksLoop wend (((wend - start) / (7 * DAY_MS)).toNat + 1) start

/-! ### Closed form of the week loop -/

/-- `n` consecutive Monday-to-Sunday windows of midnights, starting at day
number `c`. -/
def weeksFrom (c : Int) : Nat → List (List Int)
  | 0 => []
  | n + 1 =>
    ((List.range 7).map (fun i => DAY_MS * (c + i))) :: weeksFrom (c + 7) n

theorem DAY_MS_pos : 0 < DAY_MS := by decide

theorem dayNumber_mul (n : Int) : dayNumber (DAY_MS * n) = n := by
  unfold dayNumber
  rw [Int.mul_ediv_cancel_left _ (by decide : DAY_MS ≠ 0)]

theorem addDays_mul (n d : Int) : addDays (DAY_MS * n) d = DAY_MS * (n + d) := by
  unfold addDays; ring

theorem weeksFrom_length (c : Int) (n : Nat) : (weeksFrom c n).length = n := by
  induction n generalizing c with
  | zero => rfl
  | succ n ih => simp [weeksFrom, ih]

theorem weeksFrom_getD (c : Int) (n i : Nat) (h : i < n) :
    (weeksFrom c n).getD i [] =
      (List.range 7).map (fun d => DAY_MS * (c + 7 * i + d)) := by
  induction n generalizing c i with
  | zero => omega
  | succ n ih =>
    cases i with
    | zero => simp [weeksFrom]
    | succ i =>
      have := ih (c + 7) i (by omega)
      simp only [weeksFrom, List.getD_cons_succ, this]
      congr 1
      funext d
      congr 1
      push_cast
      ring

theorem count_consecutive (c d : Int) (k : Nat) :
    ((List.range k).map (fun i : Nat => c + (i : Int))).count d =
      if c ≤ d ∧ d < c + k then 1 else 0 := by
  induction k with
  | zero =>
    simp only [List.range_zero, List.map_nil, List.count_nil]
    push_cast
    split_ifs <;> omega
  | succ k ih =>
    rw [List.range_succ, List.map_append, List.count_append, ih]
    simp only [List.map_cons, List.map_nil, List.count_cons, List.count_nil,
      beq_iff_eq]
    push_cast
    split_ifs <;> omega

theorem weeksFrom_count (c : Int) (n : Nat) (d : Int) :
    (((weeksFrom c n).flatten.map dayNumber).count d) =
      if c ≤ d ∧ d < c + 7 * n then 1 else 0 := by
  induction n generalizing c with
  | zero =>
    simp only [weeksFrom, List.flatten_nil, List.map_nil, List.count_nil]
    push_cast
    split_ifs <;> omega
  | succ n ih =>
    have hweek : List.map dayNumber
        ((List.range 7).map (fun i => DAY_MS * (c + (i : Int)))) =
        (List.range 7).map (fun i : Nat => c + (i : Int)) := by
      rw [List.map_map]
      apply List.map_congr_left
      intro i _
      exact dayNumber_mul _
    rw [weeksFrom, List.flatten_cons, List.map_append, List.count_append,
      ih (c + 7), hweek, count_consecutive]
    push_cast
    split_ifs <;> omega

theorem buildWeeksLoop_closed (wd : Int) (fuel : Nat) (cd : Int)
    (hmod : (wd - cd) % 7 = 6) (hfuel : wd < cd + 7 * fuel) :
    buildWeeksLoop (DAY_MS * wd) fuel (DAY_MS * cd) =
      weeksFrom cd ((wd + 1 - cd).toNat / 7) := by
  induction fuel generalizing cd with
  | zero =>
    have : (wd + 1 - cd).toNat / 7 = 0 := by omega
    simp [buildWeeksLoop, this, weeksFrom]
  | succ fuel ih =>
    by_cases hle : cd ≤ wd
    · have hcond : DAY_MS * cd ≤ DAY_MS * wd := by
        exact mul_le_mul_of_nonneg_left hle (by decide)
      have hn : (wd + 1 - cd).toNat / 7 = (wd + 1 - (cd + 7)).toNat / 7 + 1 := by
        omega
      rw [buildWeeksLoop, if_pos hcond, hn]
      rw [show addDays (DAY_MS * cd) 7 = DAY_MS * (cd + 7) from addDays_mul cd 7]
      rw [ih (cd + 7) (by omega) (by push_cast at hfuel ⊢; omega)]
      simp only [weeksFrom]
      congr 1
      apply List.map_congr_left
      intro i _
      rw [addDays_mul]
    · have hcond : ¬ DAY_MS * cd ≤ DAY_MS * wd := by
        intro hc
        exact hle (le_of_mul_le_mul_left hc (by decide))
      have : (wd + 1 - cd).toNat / 7 = 0 := by omega
      rw [buildWeeksLoop, if_neg hcond, this]
      rfl

/-! ### The corrected year-weeks specification -/

/-- The grid property stated by the specification for `buildYearWeeks`:
weeks are 7 consecutive midnights each, contiguous (Monday `s + 7*i`),
the first day is a Monday and the last a Sunday, and every day from
Jan 1 (`jsMakeDay y 0 1`) to Dec 31 (`jsMakeDay y 11 31`) of year `y` is
covered exactly once. -/
def yearWeeksSpec (y : Int) : Prop :=
  let weeks := buildYearWeeks y
  weeks ≠ [] ∧
  ∃ s : Int,
    getDay (DAY_MS * s) = 1 ∧
    (∀ i : Nat, i < weeks.length →
      weeks.getD i [] = (List.range 7).map (fun d => DAY_MS * (s + 7 * i + d))) ∧
    s ≤ jsMakeDay y 0 1 ∧
    jsMakeDay y 11 31 < s + 7 * weeks.length ∧
    getDay (DAY_MS * (s + 7 * weeks.length - 1)) = 0 ∧
    (∀ d : Int, jsMakeDay y 0 1 ≤ d → d ≤ jsMakeDay y 11 31 →
      ((buildYearWeeks y).flatten.map dayNumber).count d = 1)

theorem jsMakeDay_jan1 (y : Int) : jsMakeDay y 0 1 = dayFromYear y := by
  simp [jsMakeDay, dayWithinYearOfMonth]

theorem jsNewDate_of_ge_100 (y : Int) (m : Nat) (d : Int) (h : 100 ≤ y) :
    jsNewDate y m d = DAY_MS * jsMakeDay y m d := by
  unfold jsNewDate
  rw [if_neg (by omega)]

theorem startOfWeekMonday_mul (j : Int) :
    startOfWeekMonday (DAY_MS * j) = DAY_MS * (j - ((j + 4) % 7 + 6) % 7) := by
  unfold startOfWeekMonday getDay addDays
  rw [dayNumber_mul]
  ring

theorem endOfWeekMonday_mul (k : Int) :
    endOfWeekMonday (DAY_MS * k) = DAY_MS * (k + (6 - ((k + 4) % 7 + 6) % 7)) := by
  unfold endOfWeekMonday getDay addDays
  rw [dayNumber_mul]
  ring

theorem getDay_mul (n : Int) : getDay (DAY_MS * n) = (n + 4) % 7 := by
  unfold getDay
  rw [dayNumber_mul]

theorem buildWeeksLoop_closed' (s w : Int) (hmod : (w - s) % 7 = 6)
    (hle : s ≤ w) :
    buildWeeksLoop (DAY_MS * w)
        (((DAY_MS * w - DAY_MS * s) / (7 * DAY_MS)).toNat + 1) (DAY_MS * s) =
      weeksFrom s ((w + 1 - s).toNat / 7) := by
  have hcancel : (DAY_MS * w - DAY_MS * s) / (7 * DAY_MS) = (w - s) / 7 := by
    rw [show DAY_MS * w - DAY_MS * s = DAY_MS * (w - s) by ring,
      show (7 : Int) * DAY_MS = DAY_MS * 7 by ring]
    exact Int.mul_ediv_mul_of_pos _ _ DAY_MS_pos
  rw [hcancel]
  exact buildWeeksLoop_closed w _ s hmod (by omega)

/-- The grid property holds for every year the `Date` constructor maps to
itself (years 100–9999). -/
theorem buildYearWeeks_spec (y : Int) (h1 : 100 ≤ y) (h2 : y ≤ 9999) :
    yearWeeksSpec y := by
  have hl : dayWithinYearOfMonth 11 (isLeapYear y) = 334 ∨
      dayWithinYearOfMonth 11 (isLeapYear y) = 335 := by
    cases isLeapYear y <;> simp [dayWithinYearOfMonth]
  set j := jsMakeDay y 0 1 with hj
  set k := jsMakeDay y 11 31 with hk
  have hkj : k = j + 364 ∨ k = j + 365 := by
    rw [hj, hk, jsMakeDay_jan1]
    unfold jsMakeDay
    omega
  set sd := j - ((j + 4) % 7 + 6) % 7 with hsd
  set wd := k + (6 - ((k + 4) % 7 + 6) % 7) with hwd
  have hsj : sd ≤ j ∧ j - 6 ≤ sd := by constructor <;> omega
  have hkw : k ≤ wd ∧ wd ≤ k + 6 := by constructor <;> omega
  have hmod : (wd - sd) % 7 = 6 := by omega
  have hsw : sd ≤ wd := by omega
  have hweeks : buildYearWeeks y = weeksFrom sd ((wd + 1 - sd).toNat / 7) := by
    unfold buildYearWeeks
    simp only [jsNewDate_of_ge_100 y 0 1 h1, jsNewDate_of_ge_100 y 11 31 h1,
      startOfWeekMonday_mul, endOfWeekMonday_mul]
    exact buildWeeksLoop_closed' sd wd hmod hsw
  set n := (wd + 1 - sd).toNat / 7 with hn
  have h7n : 7 * (n : Int) = wd + 1 - sd := by omega
  unfold yearWeeksSpec
  rw [hweeks]
  refine ⟨?_, sd, ?_, ?_, ?_, ?_, ?_, ?_⟩
  · have : (weeksFrom sd n).length = n := weeksFrom_length sd n
    intro hnil
    rw [hnil] at this
    simp at this
    omega
  · rw [getDay_mul]
    omega
  · intro i hi
    rw [weeksFrom_length] at hi
    exact weeksFrom_getD sd n i hi
  · omega
  · rw [weeksFrom_length]
    omega
  · rw [weeksFrom_length, getDay_mul]
    omega
  · intro d hd1 hd2
    rw [← hj] at hd1
    rw [← hk] at hd2
    rw [weeksFrom_count, if_pos (by omega)]

/-! ### The specification's lane-assignment procedure (C1 reference) -/

/-- The sort order exactly as the specification words it: primary key
`startIdx` ascending, tie-break by span `(endIdx - startIdx)` descending,
final tie-break by the event's start instant ascending. -/
def specSortLe (a b : Placement) : Prop :=
  a.startIdx < b.startIdx ∨
    (a.startIdx = b.startIdx ∧
      (b.endIdx - b.startIdx < a.endIdx - a.startIdx ∨
        (a.endIdx - a.startIdx = b.endIdx - b.startIdx ∧
          a.event.start ≤ b.event.start)))

instance : DecidableRel specSortLe := fun a b => by
  unfold specSortLe; infer_instance

/-- The specification's lane scan: lanes 0,1,2,… in order, the first lane
whose recorded end marker is strictly less than `startIdx`; the next fresh
index when none qualifies. -/
def specScanLane (markers : List Int) (startIdx : Int) : Nat :=
  match markers with
  | [] => 0
  | m :: rest => if m < startIdx then 0 else specScanLane rest startIdx + 1

/-- The specification's greedy assignment: scan, then record the placement's
`endIdx` as the chosen lane's end marker (appending a marker when a new lane
is opened). -/
def specAssignLanes (markers : List Int) :
    List Placement → List (Placement × Nat)
  | [] => []
  | p :: rest =>
    let lane := specScanLane markers p.startIdx
    let markers' :=
      if lane = markers.length then markers ++ [p.endIdx]
      else markers.set lane p.endIdx
    (p, lane) :: specAssignLanes markers' rest

/-- The full reference procedure of the specification: sort, then greedily
assign lanes starting from no open lanes. -/
def specLaneProcedure (placements : List Placement) : List (Placement × Nat) :=
  specAssignLanes [] (placements.insertionSort specSortLe)

theorem placementLe_iff_specSortLe (a b : Placement) :
    placementLe a b ↔ specSortLe a b := by
  simp only [placementLe, placementCmp, specSortLe]
  split_ifs <;> constructor <;> intro h <;> omega

theorem orderedInsert_ext {α : Type} (r s : α → α → Prop)
    [DecidableRel r] [DecidableRel s] (h : ∀ a b, r a b ↔ s a b) (a : α) :
    ∀ l : List α, l.orderedInsert r a = l.orderedInsert s a := by
  intro l
  induction l with
  | nil => rfl
  | cons b l ih =>
    simp only [List.orderedInsert]
    by_cases hr : r a b
    · rw [if_pos hr, if_pos ((h a b).mp hr)]
    · rw [if_neg hr, if_neg (fun hs => hr ((h a b).mpr hs)), ih]

theorem insertionSort_ext {α : Type} (r s : α → α → Prop)
    [DecidableRel r] [DecidableRel s] (h : ∀ a b, r a b ↔ s a b) :
    ∀ l : List α, l.insertionSort r = l.insertionSort s := by
  intro l
  induction l with
  | nil => rfl
  | cons a l ih => simp only [List.insertionSort, ih, orderedInsert_ext r s h]

theorem findLane_eq_specScanLane (markers : List Int) (s : Int) :
    findLane markers s = specScanLane markers s := by
  induction markers with
  | nil => rfl
  | cons m rest ih => simp only [findLane, specScanLane, ih, gt_iff_lt]

theorem assignLanes_eq_specAssignLanes (ps : List Placement)
    (markers : List Int) :
    assignLanes markers ps =
      (specAssignLanes markers ps).map
        (fun q => { event := q.1.event
                    lane := q.2
                    startIdx := q.1.startIdx
                    endIdx := q.1.endIdx
                    continuesFromPreviousWeek := q.1.continuesFromPreviousWeek
                    continuesToNextWeek := q.1.continuesToNextWeek }) := by
  induction ps generalizing markers with
  | nil => rfl
  | cons p rest ih =>
    simp only [assignLanes, specAssignLanes, List.map_cons,
      findLane_eq_specScanLane, setLaneEnd]
    rw [ih]

/-! ### Lane assignment: disjointness invariant -/

/-- A week as consumed by `buildWeekRenderData`: seven dates on consecutive
local calendar days. -/
def consecutiveWeekB (week : List Int) : Bool :=
  week.length == 7 &&
    (List.range 7).all
      (fun i => dayNumber (week.getD i 0) == dayNumber (week.getD 0 0) + i)

theorem findLane_le_length (markers : List Int) (s : Int) :
    findLane markers s ≤ markers.length := by
  induction markers with
  | nil => simp [findLane]
  | cons m rest ih =>
    simp only [findLane]
    split_ifs <;> simp <;> omega

theorem findLane_marker_lt (markers : List Int) (s : Int)
    (h : findLane markers s < markers.length) :
    markers.getD (findLane markers s) 0 < s := by
  induction markers with
  | nil => simp [findLane] at h
  | cons m rest ih =>
    simp only [findLane, List.length_cons] at h ⊢
    split_ifs at h ⊢ with hm
    · simpa using hm
    · simp only [List.getD_cons_succ]
      exact ih (by omega)

theorem setLaneEnd_length (markers : List Int) (lane : Nat) (v : Int)
    (h : lane ≤ markers.length) :
    (setLaneEnd markers lane v).length =
      if lane = markers.length then markers.length + 1 else markers.length := by
  unfold setLaneEnd
  split_ifs <;> simp

theorem setLaneEnd_getD_self (markers : List Int) (lane : Nat) (v : Int)
    (h : lane ≤ markers.length) :
    (setLaneEnd markers lane v).getD lane 0 = v := by
  unfold setLaneEnd
  split_ifs with hl
  · subst hl
    simp [List.getD_eq_getElem?_getD, List.getElem?_concat_length]
  · have hlt : lane < markers.length := by omega
    simp [List.getD_eq_getElem?_getD, List.getElem?_set_self hlt]

theorem setLaneEnd_getD_other (markers : List Int) (lane l : Nat) (v : Int)
    (hne : l ≠ lane) (hl : l < markers.length) :
    (setLaneEnd markers lane v).getD l 0 = markers.getD l 0 := by
  unfold setLaneEnd
  split_ifs with heq
  · simp [List.getD_eq_getElem?_getD, List.getElem?_append_left hl]
  · simp [List.getD_eq_getElem?_getD, List.getElem?_set_ne (Ne.symm hne)]

/-- Once a lane's end marker is at least `v`, every later bar assigned to
that lane starts strictly after `v`. -/
theorem assignLanes_start_gt (ps : List Placement) (markers : List Int)
    (l : Nat) (v : Int) (hwf : ∀ p ∈ ps, p.startIdx ≤ p.endIdx)
    (hl : l < markers.length) (hv : v ≤ markers.getD l 0) :
    ∀ b ∈ assignLanes markers ps, b.lane = l → v < b.startIdx := by
  induction ps generalizing markers with
  | nil => intro b hb; simp [assignLanes] at hb
  | cons p rest ih =>
    intro b hb hlane
    simp only [assignLanes, List.mem_cons] at hb
    have hp : p.startIdx ≤ p.endIdx := hwf p (by simp)
    rcases hb with hb | hb
    · subst hb
      have hfl : findLane markers p.startIdx = l := hlane
      have hmark := findLane_marker_lt markers p.startIdx (by rw [hfl]; exact hl)
      rw [hfl] at hmark
      show v < p.startIdx
      omega
    · by_cases hcase : findLane markers p.startIdx = l
      · have hmark := findLane_marker_lt markers p.startIdx (by rw [hcase]; exact hl)
        rw [hcase] at hmark
        have hlen : l <
            (setLaneEnd markers (findLane markers p.startIdx) p.endIdx).length := by
          rw [hcase, setLaneEnd_length markers l p.endIdx (by omega)]
          split_ifs <;> omega
        have hget : v ≤
            (setLaneEnd markers (findLane markers p.startIdx) p.endIdx).getD l 0 := by
          rw [hcase, setLaneEnd_getD_self markers l p.endIdx (by omega)]
          omega
        exact ih (setLaneEnd markers (findLane markers p.startIdx) p.endIdx)
          (fun q hq => hwf q (by simp [hq])) hlen hget b hb hlane
      · have hlen : l <
            (setLaneEnd markers (findLane markers p.startIdx) p.endIdx).length := by
          rw [setLaneEnd_length markers _ p.endIdx (findLane_le_length _ _)]
          split_ifs <;> omega
        have hget : v ≤
            (setLaneEnd markers (findLane markers p.startIdx) p.endIdx).getD l 0 := by
          rw [setLaneEnd_getD_other markers (findLane markers p.startIdx) l p.endIdx
            (fun h => hcase h.symm) hl]
          exact hv
        exact ih (setLaneEnd markers (findLane markers p.startIdx) p.endIdx)
          (fun q hq => hwf q (by simp [hq])) hlen hget b hb hlane

/-- Any two bars that the greedy assignment puts in the same lane occupy
disjoint day ranges (the earlier one ends strictly before the later one
starts). -/
theorem assignLanes_pairwise (ps : List Placement) (markers : List Int)
    (hwf : ∀ p ∈ ps, p.startIdx ≤ p.endIdx) :
    List.Pairwise (fun a b : WeekBar => a.lane = b.lane → a.endIdx < b.startIdx)
      (assignLanes markers ps) := by
  induction ps generalizing markers with
  | nil => simp [assignLanes]
  | cons p rest ih =>
    simp only [assignLanes]
    constructor
    · intro b hb hlane
      set lane := findLane markers p.startIdx with hlanedef
      simp only at hlane
      have hlen : lane < (setLaneEnd markers lane p.endIdx).length := by
        rw [setLaneEnd_length markers lane p.endIdx (findLane_le_length _ _)]
        have := findLane_le_length markers p.startIdx
        split_ifs <;> omega
      have hget : p.endIdx ≤ (setLaneEnd markers lane p.endIdx).getD lane 0 := by
        rw [setLaneEnd_getD_self markers lane p.endIdx (findLane_le_length _ _)]
      exact assignLanes_start_gt rest (setLaneEnd markers lane p.endIdx)
        lane p.endIdx (fun q hq => hwf q (by simp [hq])) hlen hget b hb hlane.symm
    · exact ih _ (fun q hq => hwf q (by simp [hq]))

/-! ### The classification loop, characterised -/

theorem classifyFold_snd (weekStart weekEnd : Int) (events : List CalendarEvent) :
    ∀ (r0 : Rec (List CalendarEvent)) (acc0 : List Placement),
      (events.foldl (classifyStep weekStart weekEnd) (r0, acc0)).2 =
        acc0 ++ events.filterMap
          (fun e => if isShortEvent e then none
            else placementOf weekStart weekEnd e) := by
  induction events with
  | nil => intro r0 acc0; simp
  | cons e rest ih =>
    intro r0 acc0
    simp only [List.foldl_cons, List.filterMap_cons]
    by_cases hs : isShortEvent e
    · cases hr : r0 (formatDateKey e.start) with
      | none =>
        simp only [classifyStep, hs, if_true, hr, ih]
      | some bucket =>
        simp only [classifyStep, hs, if_true, hr, ih]
    · cases hp : placementOf weekStart weekEnd e with
      | none =>
        simp only [classifyStep, hs, if_false, hp, ih, Bool.false_eq_true]
      | some p =>
        simp only [classifyStep, hs, if_false, hp, ih, Bool.false_eq_true,
          List.append_assoc, List.singleton_append]

theorem weekPlacements_eq (week : List Int) (events : List CalendarEvent) :
    weekPlacements week events = events.filterMap
      (fun e => if isShortEvent e then none
        else placementOf (startOfDay (week.getD 0 0))
          (startOfDay (week.getD 6 0)) e) := by
  unfold weekPlacements classifyEvents
  rw [classifyFold_snd]
  rfl

/-! ### Day arithmetic on midnights -/

theorem startOfDay_idem (t : Int) : startOfDay (startOfDay t) = startOfDay t := by
  unfold startOfDay
  rw [dayNumber_mul]

theorem daysBetween_startOfDay (a b : Int) :
    daysBetween (startOfDay a) (startOfDay b) = dayNumber b - dayNumber a := by
  unfold daysBetween
  rw [startOfDay_idem, startOfDay_idem]
  unfold startOfDay
  rw [show DAY_MS * dayNumber b - DAY_MS * dayNumber a =
    DAY_MS * (dayNumber b - dayNumber a) by ring]
  exact Int.mul_ediv_cancel_left _ (by decide)

theorem startOfDay_le_iff (a b : Int) :
    startOfDay a ≤ startOfDay b ↔ dayNumber a ≤ dayNumber b := by
  unfold startOfDay
  constructor
  · intro h
    exact le_of_mul_le_mul_left h DAY_MS_pos
  · intro h
    exact mul_le_mul_of_nonneg_left h (by decide)

theorem startOfDay_lt_iff (a b : Int) :
    startOfDay a < startOfDay b ↔ dayNumber a < dayNumber b := by
  unfold startOfDay
  constructor
  · intro h
    exact lt_of_mul_lt_mul_left h (by decide)
  · intro h
    exact mul_lt_mul_of_pos_left h DAY_MS_pos

theorem dayNumber_startOfDay (t : Int) : dayNumber (startOfDay t) = dayNumber t := by
  unfold startOfDay
  exact dayNumber_mul _

theorem dayNumber_mono {a b : Int} (h : a ≤ b) : dayNumber a ≤ dayNumber b :=
  Int.ediv_le_ediv (by decide) h

theorem daysBetween_mid (w x : Int) (hw : startOfDay w = w) :
    daysBetween w (startOfDay x) = dayNumber x - dayNumber w := by
  conv_lhs => rw [← hw]
  exact daysBetween_startOfDay w x

/-- The explicit form of a long event's placement, with the day-offset
formulas spelled out in day numbers. -/
theorem placementOf_eq (weekStart weekEnd : Int) (e : CalendarEvent)
    (hws : startOfDay weekStart = weekStart)
    (hwe2 : startOfDay weekEnd = weekEnd) :
    placementOf weekStart weekEnd e =
      if dayNumber e.start ≤ dayNumber weekEnd ∧
          dayNumber weekStart ≤ dayNumber e.«end» then
        some { event := e
               startIdx := max 0 (dayNumber e.start - dayNumber weekStart)
               endIdx := min 6 (dayNumber e.«end» - dayNumber weekStart)
               continuesFromPreviousWeek :=
                 decide (dayNumber e.start < dayNumber weekStart)
               continuesToNextWeek :=
                 decide (dayNumber weekEnd < dayNumber e.«end») }
      else none := by
  have hiff : intersectsRange (startOfDay e.start) (startOfDay e.«end»)
      weekStart weekEnd = true ↔
      (dayNumber e.start ≤ dayNumber weekEnd ∧
        dayNumber weekStart ≤ dayNumber e.«end») := by
    unfold intersectsRange
    simp only [Bool.and_eq_true, decide_eq_true_eq, ge_iff_le]
    constructor
    · rintro ⟨ha, hb⟩
      refine ⟨?_, ?_⟩
      · have ha2 : startOfDay e.start ≤ startOfDay weekEnd := by rw [hwe2]; exact ha
        exact (startOfDay_le_iff e.start weekEnd).mp ha2
      · have hb2 : startOfDay weekStart ≤ startOfDay e.«end» := by rw [hws]; exact hb
        exact (startOfDay_le_iff weekStart e.«end»).mp hb2
    · rintro ⟨ha, hb⟩
      refine ⟨?_, ?_⟩
      · have := (startOfDay_le_iff e.start weekEnd).mpr ha
        rwa [hwe2] at this
      · have := (startOfDay_le_iff weekStart e.«end»).mpr hb
        rwa [hws] at this
  unfold placementOf
  by_cases hc : dayNumber e.start ≤ dayNumber weekEnd ∧
      dayNumber weekStart ≤ dayNumber e.«end»
  · rw [if_pos (hiff.mpr hc), if_pos hc]
    have e1 : daysBetween weekStart (startOfDay e.start) =
        dayNumber e.start - dayNumber weekStart := daysBetween_mid _ _ hws
    have e2 : daysBetween weekStart (startOfDay e.«end») =
        dayNumber e.«end» - dayNumber weekStart := daysBetween_mid _ _ hws
    have e3 : decide (startOfDay e.start < weekStart) =
        decide (dayNumber e.start < dayNumber weekStart) :=
      decide_eq_decide.mpr
        (by conv_lhs => rw [← hws]
            exact startOfDay_lt_iff e.start weekStart)
    have e4 : decide (startOfDay e.«end» > weekEnd) =
        decide (dayNumber weekEnd < dayNumber e.«end») :=
      decide_eq_decide.mpr
        (by rw [gt_iff_lt]
            conv_lhs => rw [← hwe2]
            exact startOfDay_lt_iff weekEnd e.«end»)
    rw [e1, e2, e3, e4]
  · rw [if_neg (fun hx => hc (hiff.mp hx)), if_neg hc]

/-- A long event's placement is a well-formed interval within the week. -/
theorem placementOf_wf (weekStart weekEnd : Int) (e : CalendarEvent)
    (p : Placement)
    (hwe : dayNumber weekEnd = dayNumber weekStart + 6)
    (hws : startOfDay weekStart = weekStart)
    (hwe2 : startOfDay weekEnd = weekEnd)
    (hlong : isShortEvent e = false)
    (h : placementOf weekStart weekEnd e = some p) :
    p.startIdx ≤ p.endIdx ∧ 0 ≤ p.startIdx ∧ p.endIdx ≤ 6 := by
  rw [placementOf_eq weekStart weekEnd e hws hwe2] at h
  have hD : (0 : Int) < DAY_MS := DAY_MS_pos
  have hse : dayNumber e.start ≤ dayNumber e.«end» := by
    unfold isShortEvent at hlong
    simp only [decide_eq_false_iff_not, not_lt] at hlong
    exact dayNumber_mono (by omega)
  split_ifs at h with hint
  rw [Option.some.injEq] at h
  subst h
  refine ⟨?_, ?_, ?_⟩ <;> dsimp only <;> omega

/-! ### Facts about a consecutive week -/

theorem consecutiveWeek_facts (week : List Int)
    (h : consecutiveWeekB week = true) :
    week.length = 7 ∧
      ∀ i : Nat, i < 7 →
        dayNumber (week.getD i 0) = dayNumber (week.getD 0 0) + i := by
  unfold consecutiveWeekB at h
  simp only [Bool.and_eq_true, beq_iff_eq, List.all_eq_true, List.mem_range] at h
  exact ⟨h.1, fun i hi => h.2 i hi⟩

theorem weekKeys_getD (week : List Int) (j : Nat) (hj : j < week.length) :
    (week.map formatDateKey).getD j 0 = formatDateKey (week.getD j 0) := by
  rw [List.getD_eq_getElem?_getD, List.getD_eq_getElem?_getD, List.getElem?_map,
    List.getElem?_eq_getElem hj]
  rfl

theorem weekPlacements_wf (week : List Int) (events : List CalendarEvent)
    (h : consecutiveWeekB week = true) :
    ∀ p ∈ weekPlacements week events, p.startIdx ≤ p.endIdx := by
  obtain ⟨hlen, hcons⟩ := consecutiveWeek_facts week h
  intro p hp
  rw [weekPlacements_eq] at hp
  rw [List.mem_filterMap] at hp
  obtain ⟨e, _, he⟩ := hp
  by_cases hs : isShortEvent e
  · simp [hs] at he
  · rw [if_neg hs] at he
    have hwf := placementOf_wf (startOfDay (week.getD 0 0))
      (startOfDay (week.getD 6 0)) e p ?_ (startOfDay_idem _) (startOfDay_idem _)
      (by simpa using hs) he
    · exact hwf.1
    · rw [dayNumber_startOfDay, dayNumber_startOfDay]
      rw [hcons 6 (by omega)]
      push_cast
      ring

/-- C2 support: all bars of a week, including the ones dropped from
`weekBars`, are pairwise lane-disjoint. -/
theorem allWeekBarsOf_pairwise (week : List Int) (events : List CalendarEvent)
    (h : consecutiveWeekB week = true) :
    List.Pairwise (fun a b : WeekBar => a.lane = b.lane → a.endIdx < b.startIdx)
      (allWeekBarsOf week events) := by
  unfold allWeekBarsOf
  apply assignLanes_pairwise
  intro p hp
  have hp2 : p ∈ weekPlacements week events :=
    (List.Perm.mem_iff (List.perm_insertionSort placementLe _)).mp hp
  exact weekPlacements_wf week events h p hp2

/-! ### Instances for the final `weekBars` sort -/

theorem barLe_total (a b : WeekBar) : barLe a b ∨ barLe b a := by
  unfold barLe barCmp
  split_ifs <;> omega

theorem barLe_trans (a b c : WeekBar) (hab : barLe a b) (hbc : barLe b c) :
    barLe a c := by
  unfold barLe barCmp at *
  split_ifs at * <;> omega

instance : IsTotal WeekBar barLe := ⟨barLe_total⟩

instance : IsTrans WeekBar barLe := ⟨barLe_trans⟩

/-! ### The per-day counts loop, characterised -/

theorem recSet_self {β : Type} (r : Rec β) (k : Int) (v : β) :
    recSet r k v k = some v := by
  unfold recSet
  simp

theorem recSet_ne {β : Type} (r : Rec β) (k k' : Int) (v : β) (h : k' ≠ k) :
    recSet r k v k' = r k' := by
  unfold recSet
  simp [h]

theorem countsFold_frozen (weekKeys : List Int) (bars : List WeekBar)
    (idxs : List Nat) (k : Int)
    (hk : ∀ j ∈ idxs, weekKeys.getD j 0 ≠ k) :
    ∀ acc : Rec Int × Rec Int × Rec (List CalendarEvent),
      ((idxs.foldl (countsStep weekKeys bars) acc).1 k = acc.1 k) ∧
      ((idxs.foldl (countsStep weekKeys bars) acc).2.1 k = acc.2.1 k) := by
  induction idxs with
  | nil => intro acc; exact ⟨rfl, rfl⟩
  | cons j rest ih =>
    intro acc
    have hkey : weekKeys.getD j 0 ≠ k := hk j (by simp)
    have hrest : ∀ j' ∈ rest, weekKeys.getD j' 0 ≠ k :=
      fun j' hj' => hk j' (by simp [hj'])
    simp only [List.foldl_cons]
    obtain ⟨h1, h2⟩ := ih hrest (countsStep weekKeys bars acc j)
    refine ⟨?_, ?_⟩
    · rw [h1]
      unfold countsStep
      exact recSet_ne _ _ _ _ (fun hx => hkey hx.symm) |>.trans rfl
    · rw [h2]
      unfold countsStep
      exact recSet_ne _ _ _ _ (fun hx => hkey hx.symm) |>.trans rfl

theorem countsFold_main (weekKeys : List Int) (bars : List WeekBar)
    (idxs : List Nat) (d : Nat)
    (hmem : d ∈ idxs) (hnodup : idxs.Nodup)
    (hinj : ∀ j ∈ idxs, weekKeys.getD j 0 = weekKeys.getD d 0 → j = d) :
    ∀ acc : Rec Int × Rec Int × Rec (List CalendarEvent),
      ((idxs.foldl (countsStep weekKeys bars) acc).1 (weekKeys.getD d 0) =
        some (((bars.filter (fun b => b.startIdx ≤ (d : Int) &&
          b.endIdx ≥ (d : Int))).length : Int))) ∧
      ((idxs.foldl (countsStep weekKeys bars) acc).2.1 (weekKeys.getD d 0) =
        some (max 0 (((bars.filter (fun b => b.startIdx ≤ (d : Int) &&
          b.endIdx ≥ (d : Int))).length : Int) - (MAX_VISIBLE_BARS : Int)))) := by
  induction idxs with
  | nil => simp at hmem
  | cons j rest ih =>
    intro acc
    simp only [List.foldl_cons]
    by_cases hj : j = d
    · subst hj
      have hrest : ∀ j' ∈ rest, weekKeys.getD j' 0 ≠ weekKeys.getD j 0 := by
        intro j' hj' hx
        have := hinj j' (by simp [hj']) hx
        subst this
        exact (List.nodup_cons.mp hnodup).1 hj'
      obtain ⟨h1, h2⟩ := countsFold_frozen weekKeys bars rest (weekKeys.getD j 0)
        hrest (countsStep weekKeys bars acc j)
      refine ⟨?_, ?_⟩
      · rw [h1]
        unfold countsStep
        exact recSet_self _ _ _
      · rw [h2]
        unfold countsStep
        exact recSet_self _ _ _
    · have hd : d ∈ rest := by
        rcases List.mem_cons.mp hmem with h | h
        · exact absurd h.symm hj
        · exact h
      exact ih hd (List.nodup_cons.mp hnodup).2
        (fun j' hj' => hinj j' (by simp [hj'])) _

/-! ### Witness fixtures: a concrete week (Monday day 20500) and events -/

/-- A concrete week of seven consecutive midnights starting at day 20500. -/
def sampleWeek : List Int :=
  (List.range 7).map (fun i => DAY_MS * (20500 + (i : Int)))

/-- A three-day event inside `sampleWeek`. -/
def sampleLongA : CalendarEvent :=
  { id := "a", summary := "A", start := DAY_MS * 20500 + 9 * 3600000,
    «end» := DAY_MS * 20503 + 12 * 3600000, color := "#fff" }

/-- A five-day event inside `sampleWeek`, overlapping `sampleLongA`. -/
def sampleLongB : CalendarEvent :=
  { id := "b", summary := "B", start := DAY_MS * 20500 + 10 * 3600000,
    «end» := DAY_MS * 20505, color := "#abc" }

/-- A 90-minute event inside `sampleWeek`. -/
def sampleShort : CalendarEvent :=
  { id := "s", summary := "S", start := DAY_MS * 20501 + 9 * 3600000,
    «end» := DAY_MS * 20501 + 10 * 3600000 + 1800000, color := "#0859dbff" }

/-! ### C1 -/

/-- C1: for every week and event list, the bars produced by
`buildWeekRenderData`'s internal lane assignment (sort by `startIdx`
ascending, span descending, start instant ascending, then first-fit scan
over lane end markers) coincide with the specification's reference
procedure `specLaneProcedure`, and the output `weekBars` field is obtained
from those bars by the visibility cutoff and the final sort. -/
theorem lanes_match_spec_procedure (week : List Int)
    (events : List CalendarEvent) :
    allWeekBarsOf week events =
      (specLaneProcedure (weekPlacements week events)).map
        (fun q => { event := q.1.event
                    lane := q.2
                    startIdx := q.1.startIdx
                    endIdx := q.1.endIdx
                    continuesFromPreviousWeek := q.1.continuesFromPreviousWeek
                    continuesToNextWeek := q.1.continuesToNextWeek }) ∧
    (buildWeekRenderData week events).weekBars =
      ((allWeekBarsOf week events).filter
        (fun bar => bar.lane < MAX_VISIBLE_BARS)).insertionSort barLe := by
  constructor
  · unfold allWeekBarsOf specLaneProcedure
    rw [insertionSort_ext placementLe specSortLe placementLe_iff_specSortLe]
    exact assignLanes_eq_specAssignLanes _ _
  · rfl

/-! ### C2 -/

/-- C2: in any week of seven consecutive dates, two distinct lane-assigned
bars (including those later dropped from `weekBars`) that share a lane
cover no common day index. -/
theorem same_lane_bars_disjoint (week : List Int)
    (events : List CalendarEvent) (h : consecutiveWeekB week = true) :
    List.Pairwise
      (fun a b : WeekBar => a.lane = b.lane →
        ∀ d : Int, ¬(a.startIdx ≤ d ∧ d ≤ a.endIdx ∧
          b.startIdx ≤ d ∧ d ≤ b.endIdx))
      (allWeekBarsOf week events) := by
  refine List.Pairwise.imp ?_ (allWeekBarsOf_pairwise week events h)
  intro a b hab hlane d hd
  have := hab hlane
  omega

/-- Witness for C2 at a concrete week and two overlapping long events. -/
theorem same_lane_bars_disjoint_witness :
    consecutiveWeekB sampleWeek = true ∧
    List.Pairwise
      (fun a b : WeekBar => a.lane = b.lane →
        ∀ d : Int, ¬(a.startIdx ≤ d ∧ d ≤ a.endIdx ∧
          b.startIdx ≤ d ∧ d ≤ b.endIdx))
      (allWeekBarsOf sampleWeek [sampleLongA, sampleLongB]) :=
  ⟨by decide,
    same_lane_bars_disjoint sampleWeek [sampleLongA, sampleLongB] (by decide)⟩

/-! ### C4 -/

/-- C4: the returned `weekBars` are exactly the assigned bars with
`lane < MAX_VISIBLE_BARS` (as a multiset), ordered ascending by lane, then
`startIdx`, then event start instant. -/
theorem weekBars_cutoff_and_order (week : List Int)
    (events : List CalendarEvent) :
    ((buildWeekRenderData week events).weekBars).Perm
      ((allWeekBarsOf week events).filter
        (fun bar => bar.lane < MAX_VISIBLE_BARS)) ∧
    List.Pairwise
      (fun a b : WeekBar =>
        a.lane < b.lane ∨ (a.lane = b.lane ∧
          (a.startIdx < b.startIdx ∨ (a.startIdx = b.startIdx ∧
            a.event.start ≤ b.event.start))))
      (buildWeekRenderData week events).weekBars := by
  have hwb : (buildWeekRenderData week events).weekBars =
      ((allWeekBarsOf week events).filter
        (fun bar => bar.lane < MAX_VISIBLE_BARS)).insertionSort barLe := rfl
  constructor
  · rw [hwb]
    exact List.perm_insertionSort _ _
  · rw [hwb]
    refine List.Pairwise.imp ?_ (List.sorted_insertionSort barLe _)
    intro a b hab
    unfold barLe barCmp at hab
    split_ifs at hab <;> omega

/-! ### C3 -/

/-- C3: for a week of seven consecutive dates, the per-day record entries
hold the number of assigned bars (any lane) covering that day, and the
overflow record holds `max 0 (active - MAX_VISIBLE_BARS)`. -/
theorem perDay_counts (week : List Int) (events : List CalendarEvent)
    (h : consecutiveWeekB week = true) (d : Nat) (hd : d < 7) :
    (buildWeekRenderData week events).activeBarsByDateKey
        (formatDateKey (week.getD d 0)) =
      some (((allWeekBarsOf week events).filter
        (fun b => b.startIdx ≤ (d : Int) && b.endIdx ≥ (d : Int))).length : Int) ∧
    (buildWeekRenderData week events).overflowBarsByDateKey
        (formatDateKey (week.getD d 0)) =
      some (max 0 ((((allWeekBarsOf week events).filter
        (fun b => b.startIdx ≤ (d : Int) && b.endIdx ≥ (d : Int))).length : Int) -
        (MAX_VISIBLE_BARS : Int))) := by
  obtain ⟨hlen, hcons⟩ := consecutiveWeek_facts week h
  have hklen : (week.map formatDateKey).length = 7 := by simp [hlen]
  have hkey : (week.map formatDateKey).getD d 0 = formatDateKey (week.getD d 0) :=
    weekKeys_getD week d (by omega)
  have hmain := countsFold_main (week.map formatDateKey)
    (allWeekBarsOf week events) (List.range 7) d
    (by simp [hd]) (List.nodup_range 7)
    (fun j hj hkeq => by
      have hj7 : j < 7 := by simpa using hj
      rw [weekKeys_getD week j (by omega), weekKeys_getD week d (by omega)] at hkeq
      unfold formatDateKey at hkeq
      rw [hcons j hj7, hcons d (by omega)] at hkeq
      omega)
    ((recInit (week.map formatDateKey) 0, recInit (week.map formatDateKey) 0,
      (classifyEvents (startOfDay (week.getD 0 0)) (startOfDay (week.getD 6 0))
        (recInit (week.map formatDateKey) []) events).1))
  rw [hkey] at hmain
  have hact : (buildWeekRenderData week events).activeBarsByDateKey =
      ((List.range (week.map formatDateKey).length).foldl
        (countsStep (week.map formatDateKey) (allWeekBarsOf week events))
        (recInit (week.map formatDateKey) 0, recInit (week.map formatDateKey) 0,
          (classifyEvents (startOfDay (week.getD 0 0))
            (startOfDay (week.getD 6 0))
            (recInit (week.map formatDateKey) []) events).1)).1 := rfl
  have hover : (buildWeekRenderData week events).overflowBarsByDateKey =
      ((List.range (week.map formatDateKey).length).foldl
        (countsStep (week.map formatDateKey) (allWeekBarsOf week events))
        (recInit (week.map formatDateKey) 0, recInit (week.map formatDateKey) 0,
          (classifyEvents (startOfDay (week.getD 0 0))
            (startOfDay (week.getD 6 0))
            (recInit (week.map formatDateKey) []) events).1)).2.1 := rfl
  rw [hact, hover, hklen]
  exact hmain

/-- Witness for C3 at a concrete week, events and day index 0. -/
theorem perDay_counts_witness :
    consecutiveWeekB sampleWeek = true ∧ 0 < 7 ∧
    ((buildWeekRenderData sampleWeek [sampleLongA, sampleLongB]).activeBarsByDateKey
        (formatDateKey (sampleWeek.getD 0 0)) =
      some (((allWeekBarsOf sampleWeek [sampleLongA, sampleLongB]).filter
        (fun b => b.startIdx ≤ (0 : Int) && b.endIdx ≥ (0 : Int))).length : Int) ∧
    (buildWeekRenderData sampleWeek [sampleLongA, sampleLongB]).overflowBarsByDateKey
        (formatDateKey (sampleWeek.getD 0 0)) =
      some (max 0 ((((allWeekBarsOf sampleWeek [sampleLongA, sampleLongB]).filter
        (fun b => b.startIdx ≤ (0 : Int) && b.endIdx ≥ (0 : Int))).length : Int) -
        (MAX_VISIBLE_BARS : Int)))) :=
  ⟨by decide, by decide,
    perDay_counts sampleWeek [sampleLongA, sampleLongB] (by decide) 0 (by decide)⟩

/-! ### C5 -/

/-- C5: a long event yields a placement in a week iff its local start day is
at most the week's last day and its local end day is at least the week's
first day, with `startIdx`, `endIdx` and the continuation flags given by the
stated formulas; and `buildWeekRenderData`'s placement list routes exactly
the long events through this test. -/
theorem long_event_placement (week : List Int) (e : CalendarEvent)
    (hlong : isShortEvent e = false) :
    (placementOf (startOfDay (week.getD 0 0)) (startOfDay (week.getD 6 0)) e =
      if dayNumber e.start ≤ dayNumber (week.getD 6 0) ∧
          dayNumber (week.getD 0 0) ≤ dayNumber e.«end» then
        some { event := e
               startIdx := max 0 (dayNumber e.start - dayNumber (week.getD 0 0))
               endIdx := min 6 (dayNumber e.«end» - dayNumber (week.getD 0 0))
               continuesFromPreviousWeek :=
                 decide (dayNumber e.start < dayNumber (week.getD 0 0))
               continuesToNextWeek :=
                 decide (dayNumber (week.getD 6 0) < dayNumber e.«end») }
      else none) ∧
    ∀ events : List CalendarEvent,
      weekPlacements week events =
        events.filterMap (fun ev => if isShortEvent ev then none
          else placementOf (startOfDay (week.getD 0 0))
            (startOfDay (week.getD 6 0)) ev) := by
  constructor
  · rw [placementOf_eq _ _ e (startOfDay_idem _) (startOfDay_idem _),
      dayNumber_startOfDay, dayNumber_startOfDay]
  · intro events
    exact weekPlacements_eq week events

/-- Witness for C5 at a concrete long event and week. -/
theorem long_event_placement_witness :
    isShortEvent sampleLongA = false ∧
    (placementOf (startOfDay (sampleWeek.getD 0 0))
        (startOfDay (sampleWeek.getD 6 0)) sampleLongA =
      if dayNumber sampleLongA.start ≤ dayNumber (sampleWeek.getD 6 0) ∧
          dayNumber (sampleWeek.getD 0 0) ≤ dayNumber sampleLongA.«end» then
        some { event := sampleLongA
               startIdx := max 0 (dayNumber sampleLongA.start -
                 dayNumber (sampleWeek.getD 0 0))
               endIdx := min 6 (dayNumber sampleLongA.«end» -
                 dayNumber (sampleWeek.getD 0 0))
               continuesFromPreviousWeek :=
                 decide (dayNumber sampleLongA.start <
                   dayNumber (sampleWeek.getD 0 0))
               continuesToNextWeek :=
                 decide (dayNumber (sampleWeek.getD 6 0) <
                   dayNumber sampleLongA.«end») }
      else none) ∧
    ∀ events : List CalendarEvent,
      weekPlacements sampleWeek events =
        events.filterMap (fun ev => if isShortEvent ev then none
          else placementOf (startOfDay (sampleWeek.getD 0 0))
            (startOfDay (sampleWeek.getD 6 0)) ev) :=
  ⟨by decide,
    (long_event_placement sampleWeek sampleLongA (by decide)).1,
    (long_event_placement sampleWeek sampleLongA (by decide)).2⟩

/-! ### C6 support -/

theorem placementOf_event (weekStart weekEnd : Int) (x : CalendarEvent)
    (p : Placement) (h : placementOf weekStart weekEnd x = some p) :
    p.event = x := by
  unfold placementOf at h
  split_ifs at h
  rw [Option.some.injEq] at h
  subst h
  rfl

theorem assignLanes_map_event (ps : List Placement) (markers : List Int) :
    (assignLanes markers ps).map (fun b => b.event) =
      ps.map (fun p => p.event) := by
  induction ps generalizing markers with
  | nil => rfl
  | cons p rest ih => simp only [assignLanes, List.map_cons, ih]

theorem filterMap_event_count (f : CalendarEvent → Option Placement)
    (hf : ∀ x p, f x = some p → p.event = x)
    (events : List CalendarEvent) (e : CalendarEvent) :
    ((events.filterMap f).map (fun p => p.event)).count e =
      if (f e).isSome then events.count e else 0 := by
  induction events with
  | nil => simp
  | cons x rest ih =>
    rw [List.filterMap_cons]
    cases hfx : f x with
    | none =>
      rw [ih]
      by_cases hxe : x = e
      · subst hxe
        rw [hfx]
        simp
      · rw [List.count_cons_of_ne (fun hc => hxe hc.symm)]
    | some p =>
      rw [List.map_cons, hf x p hfx]
      by_cases hxe : x = e
      · subst hxe
        rw [hfx]
        simp only [Option.isSome_some, if_true]
        rw [List.count_cons_self, List.count_cons_self]
        have ih2 := ih
        rw [hfx] at ih2
        simp only [Option.isSome_some, if_true] at ih2
        rw [ih2]
      · rw [List.count_cons_of_ne (fun hc => hxe hc.symm),
          List.count_cons_of_ne (fun hc => hxe hc.symm), ih]

theorem allWeekBarsOf_event_count (week : List Int)
    (events : List CalendarEvent) (e : CalendarEvent) :
    ((allWeekBarsOf week events).map (fun b => b.event)).count e =
      if isShortEvent e = false ∧
          (placementOf (startOfDay (week.getD 0 0))
            (startOfDay (week.getD 6 0)) e).isSome
      then events.count e else 0 := by
  unfold allWeekBarsOf
  rw [assignLanes_map_event]
  have hperm : List.Perm
      (((weekPlacements week events).insertionSort placementLe).map
        (fun p => p.event))
      ((weekPlacements week events).map (fun p => p.event)) :=
    (List.perm_insertionSort placementLe _).map _
  rw [hperm.count_eq]
  rw [weekPlacements_eq]
  rw [filterMap_event_count _ ?hf events e]
  case hf =>
    intro x p hx
    by_cases hsx : isShortEvent x
    · rw [if_pos hsx] at hx
      exact Option.noConfusion hx
    · rw [if_neg hsx] at hx
      exact placementOf_event _ _ x p hx
  by_cases hs : isShortEvent e
  · simp [hs]
  · simp [hs]

theorem classifyFold_fst (weekStart weekEnd : Int)
    (events : List CalendarEvent) :
    ∀ (r0 : Rec (List CalendarEvent)) (acc0 : List Placement) (k : Int),
      (events.foldl (classifyStep weekStart weekEnd) (r0, acc0)).1 k =
        match r0 k with
        | none => none
        | some b => some (b ++ events.filter
            (fun x => isShortEvent x && decide (formatDateKey x.start = k))) := by
  induction events with
  | nil =>
    intro r0 acc0 k
    simp only [List.foldl_nil, List.filter_nil, List.append_nil]
    cases r0 k <;> rfl
  | cons x rest ih =>
    intro r0 acc0 k
    simp only [List.foldl_cons, List.filter_cons]
    by_cases hs : isShortEvent x
    · cases hr : r0 (formatDateKey x.start) with
      | none =>
        have hstep : classifyStep weekStart weekEnd (r0, acc0) x = (r0, acc0) := by
          unfold classifyStep
          rw [if_pos hs]
          rw [show (r0, acc0).1 = r0 from rfl, hr]
        rw [hstep, ih r0 acc0 k]
        by_cases hk : formatDateKey x.start = k
        · rw [← hk, hr]
        · cases hr0 : r0 k <;> simp [hr0, hs, hk]
      | some bucket =>
        have hstep : classifyStep weekStart weekEnd (r0, acc0) x =
            (recSet r0 (formatDateKey x.start) (bucket ++ [x]), acc0) := by
          unfold classifyStep
          rw [if_pos hs]
          rw [show (r0, acc0).1 = r0 from rfl, hr]
        rw [hstep, ih _ acc0 k]
        by_cases hk : formatDateKey x.start = k
        · rw [← hk, recSet_self, hr]
          simp [hs, List.append_assoc]
        · rw [recSet_ne _ _ _ _ (fun hc => hk hc.symm)]
          cases hr0 : r0 k <;> simp [hr0, hs, hk]
    · have hstep : classifyStep weekStart weekEnd (r0, acc0) x =
          (r0, (classifyStep weekStart weekEnd (r0, acc0) x).2) := by
        unfold classifyStep
        rw [if_neg hs]
        cases hp : placementOf weekStart weekEnd x <;> rfl
      rw [hstep, ih r0 _ k]
      cases hr0 : r0 k <;> simp [hr0, hs]

theorem countsFold_shorts_count (weekKeys : List Int) (bars : List WeekBar)
    (idxs : List Nat) :
    ∀ (acc : Rec Int × Rec Int × Rec (List CalendarEvent)) (k : Int)
      (e : CalendarEvent),
      ((((idxs.foldl (countsStep weekKeys bars) acc).2.2 k).getD []).count e) =
        (((acc.2.2 k).getD []).count e) := by
  induction idxs with
  | nil => intro acc k e; rfl
  | cons j rest ih =>
    intro acc k e
    simp only [List.foldl_cons]
    rw [ih]
    show List.count e (((countsStep weekKeys bars acc j).2.2 k).getD []) = _
    unfold countsStep
    cases hb : acc.2.2 (weekKeys.getD j 0) with
    | none => rfl
    | some bucket =>
      show List.count e
        (((recSet acc.2.2 (weekKeys.getD j 0)
          (List.insertionSort eventStartLe bucket)) k).getD []) =
        List.count e ((acc.2.2 k).getD [])
      by_cases hk : k = weekKeys.getD j 0
      · subst hk
        rw [recSet_self, hb]
        simp only [Option.getD_some]
        exact (List.perm_insertionSort eventStartLe bucket).count_eq e
      · rw [recSet_ne _ _ _ _ hk]

theorem count_filter_ite (p : CalendarEvent → Bool) (l : List CalendarEvent)
    (a : CalendarEvent) :
    (l.filter p).count a = if p a then l.count a else 0 := by
  by_cases hp : p a
  · rw [if_pos hp]
    exact List.count_filter hp
  · rw [if_neg hp]
    rw [List.count_eq_zero]
    intro hmem
    exact hp (List.of_mem_filter hmem)

theorem placementOf_isSome (weekStart weekEnd : Int) (e : CalendarEvent) :
    (placementOf weekStart weekEnd e).isSome =
      intersectsRange (startOfDay e.start) (startOfDay e.«end»)
        weekStart weekEnd := by
  by_cases h : intersectsRange (startOfDay e.start) (startOfDay e.«end»)
      weekStart weekEnd
  · unfold placementOf
    rw [if_pos h, h]
    rfl
  · unfold placementOf
    rw [if_neg h]
    simp only [Bool.not_eq_true] at h
    rw [h]
    rfl

/-- The final short-event bucket of a key: the week's short events starting
on that day, counted with multiplicity. -/
theorem shortBucket_count (week : List Int) (events : List CalendarEvent)
    (e : CalendarEvent) (k : Int) :
    ((((buildWeekRenderData week events).shortEventsByDateKey k).getD []).count e) =
      if k ∈ week.map formatDateKey
      then (events.filter
        (fun x => isShortEvent x && decide (formatDateKey x.start = k))).count e
      else 0 := by
  have hr : (buildWeekRenderData week events).shortEventsByDateKey =
      ((List.range (week.map formatDateKey).length).foldl
        (countsStep (week.map formatDateKey) (allWeekBarsOf week events))
        (recInit (week.map formatDateKey) 0, recInit (week.map formatDateKey) 0,
          (classifyEvents (startOfDay (week.getD 0 0))
            (startOfDay (week.getD 6 0))
            (recInit (week.map formatDateKey) []) events).1)).2.2 := rfl
  rw [hr, countsFold_shorts_count]
  show ((((events.foldl (classifyStep (startOfDay (week.getD 0 0))
      (startOfDay (week.getD 6 0)))
      (recInit (week.map formatDateKey) [], [])).1 k).getD []).count e) = _
  rw [classifyFold_fst]
  by_cases hk : k ∈ week.map formatDateKey
  · rw [if_pos hk]
    unfold recInit
    rw [if_pos hk]
    rfl
  · rw [if_neg hk]
    unfold recInit
    rw [if_neg hk]
    rfl

/-! ### C6 -/

/-- C6: an event is classified short exactly when its duration is under 24
hours, and each event is routed to exactly one place per week: a short
event appears only in the bucket of its local start day (when that day
belongs to the week) and never among the lane-assigned bars, while a long
event appears only among the lane-assigned bars (when it intersects the
week) and never in a short-event bucket. -/
theorem short_long_partition (week : List Int) (events : List CalendarEvent)
    (e : CalendarEvent) :
    (isShortEvent e = true ↔ e.«end» - e.start < DAY_MS) ∧
    (isShortEvent e = true →
      ((allWeekBarsOf week events).map (fun b => b.event)).count e = 0 ∧
      ∀ k : Int,
        ((((buildWeekRenderData week events).shortEventsByDateKey k).getD
          []).count e) =
          if formatDateKey e.start = k ∧ k ∈ week.map formatDateKey
          then events.count e else 0) ∧
    (isShortEvent e = false →
      (∀ k : Int,
        ((((buildWeekRenderData week events).shortEventsByDateKey k).getD
          []).count e) = 0) ∧
      ((allWeekBarsOf week events).map (fun b => b.event)).count e =
        if intersectsRange (startOfDay e.start) (startOfDay e.«end»)
            (startOfDay (week.getD 0 0)) (startOfDay (week.getD 6 0)) = true
        then events.count e else 0) := by
  refine ⟨?_, ?_, ?_⟩
  · unfold isShortEvent
    exact ⟨fun h => of_decide_eq_true h, fun h => decide_eq_true h⟩
  · intro hs
    constructor
    · rw [allWeekBarsOf_event_count]
      rw [if_neg (fun hc => by rw [hs] at hc; exact Bool.noConfusion hc.1)]
    · intro k
      rw [shortBucket_count, count_filter_ite]
      by_cases hk : k ∈ week.map formatDateKey
      · rw [if_pos hk]
        by_cases hke : formatDateKey e.start = k
        · rw [if_pos (by simp [hs, hke]), if_pos ⟨hke, hk⟩]
        · rw [if_neg (by simp [hs, hke]), if_neg (fun hc => hke hc.1)]
      · rw [if_neg hk, if_neg (fun hc => hk hc.2)]
  · intro hs
    constructor
    · intro k
      rw [shortBucket_count, count_filter_ite]
      by_cases hk : k ∈ week.map formatDateKey
      · rw [if_pos hk, if_neg (by simp [hs])]
      · rw [if_neg hk]
    · rw [allWeekBarsOf_event_count]
      rw [placementOf_isSome]
      by_cases hi : intersectsRange (startOfDay e.start) (startOfDay e.«end»)
          (startOfDay (week.getD 0 0)) (startOfDay (week.getD 6 0)) = true
      · rw [if_pos ⟨hs, hi⟩, if_pos hi]
      · rw [if_neg (fun hc => hi hc.2), if_neg hi]

/-- Witness for C6 at a concrete week, a short and a long event. -/
theorem short_long_partition_witness :
    isShortEvent sampleShort = true ∧
    ((allWeekBarsOf sampleWeek [sampleShort, sampleLongA]).map
      (fun b => b.event)).count sampleShort = 0 ∧
    ((((buildWeekRenderData sampleWeek
        [sampleShort, sampleLongA]).shortEventsByDateKey 20501).getD
      []).count sampleShort) =
      if formatDateKey sampleShort.start = 20501 ∧
          (20501 : Int) ∈ sampleWeek.map formatDateKey
      then ([sampleShort, sampleLongA].count sampleShort) else 0 :=
  ⟨by decide,
    ((short_long_partition sampleWeek [sampleShort, sampleLongA]
      sampleShort).2.1 (by decide)).1,
    ((short_long_partition sampleWeek [sampleShort, sampleLongA]
      sampleShort).2.1 (by decide)).2 20501⟩

/-! ### C7 -/

/-- C7 (amended): for every valid year from 100 to 9999, `buildYearWeeks`
returns contiguous Monday-starting weeks of 7 consecutive days covering
Jan 1 to Dec 31 of that year exactly once, ending on a Sunday.  (For valid
years 1–99 the `Date` constructor's two-digit-year rule makes the weeks
cover year 1900+Y instead, see the counterexample.) -/
theorem buildYearWeeks_grid (y : Int) (h1 : isValidYear y = true)
    (h2 : 100 ≤ y) : yearWeeksSpec y := by
  unfold isValidYear at h1
  simp only [Bool.and_eq_true, decide_eq_true_eq] at h1
  exact buildYearWeeks_spec y h2 h1.2

/-- Witness for C7 at year 2026. -/
theorem buildYearWeeks_grid_witness :
    isValidYear 2026 = true ∧ (100 : Int) ≤ 2026 ∧ yearWeeksSpec 2026 :=
  ⟨by decide, by decide, buildYearWeeks_grid 2026 (by decide) (by decide)⟩

/-- C7 counterexample: 50 is a valid year, yet no week of
`buildYearWeeks 50` contains Jan 1 of year 50 (the `Date` constructor maps
year 50 to 1950), so the weeks do not cover Jan 1–Dec 31 of year 50. -/
theorem buildYearWeeks_year50_not_covered :
    isValidYear 50 = true ∧
    ∀ w ∈ buildYearWeeks 50, ∀ t ∈ w, dayNumber t ≠ jsMakeDay 50 0 1 :=
  ⟨by decide, by decide⟩

/-! ### C8: the ingestion/mapping layer -/

/-- `ApiEvent` as consumed by `parseApiEvent`.  A date string is modelled
by its `new Date(string)` parse result: `some t` when it parses to the
timestamp `t`, `none` when it is unparseable (`NaN`). -/
structure ApiEvent where
  id : String
  summary : String
  start : Option Int
  «end» : Option Int
  color : String
  isAllDay : Bool := false
  deriving DecidableEq, Repr

/-- `parseApiEvent` in the source: drops the event exactly when `start` or
`end` is unparseable, otherwise carries the fields over. -/
def parseApiEvent (raw : ApiEvent) : Option CalendarEvent :=
  match raw.start, raw.«end» with
  | some s, some e =>
    some { id := raw.id, summary := raw.summary, start := s, «end» := e,
           color := raw.color, isAllDay := raw.isAllDay }
  | _, _ => none

/-- The comparator order of `sortEventsByTime` in the source: start instant,
then end instant, then summary (`localeCompare` modelled as the string
order). -/
def eventTimeLe (a b : CalendarEvent) : Prop :=
  a.start < b.start ∨ (a.start = b.start ∧
    (a.«end» < b.«end» ∨ (a.«end» = b.«end» ∧ a.summary ≤ b.summary)))

instance : DecidableRel eventTimeLe := fun a b => by
  unfold eventTimeLe; infer_instance

/-- `sortEventsByTime` in the source. -/
def sortEventsByTime (events : List CalendarEvent) : List CalendarEvent :=
  events.insertionSort eventTimeLe

/-- The event pipeline of `loadEvents` in `useYearEvents.ts`:
`payload.map(parseApiEvent).filter(e => e !== null)` then sort. -/
def loadEvents (payload : List ApiEvent) : List CalendarEvent :=
  sortEventsByTime (payload.filterMap parseApiEvent)

/-- The `start`/`end` object of a Google calendar event: each date string
is modelled by its parse result (`none` = field absent; `some none` =
present but unparseable; `some (some t)` = parses to `t`). -/
structure GoogleEventTime where
  dateTime : Option (Option Int)
  date : Option (Option Int)
  deriving DecidableEq, Repr

/-- A Google calendar event, reduced to the fields `mapGoogleEvent`
interprets (`none` models a missing/empty field). -/
structure GoogleCalendarEvent where
  id : Option String
  summary : String
  start : Option GoogleEventTime
  «end» : Option GoogleEventTime
  color : String
  deriving DecidableEq, Repr

/-- `mapGoogleEvent` in the Google calendar client: resolves the start/end
dates (timed events via `dateTime`, all-day events via `date` with the
exclusive end day pulled back one second) and drops the event when either
date is missing/unparseable or the end precedes the start.  The resulting
`ApiEvent` carries ISO strings, which always parse back, so its fields are
`some`. -/
def mapGoogleEvent (event : GoogleCalendarEvent) : Option ApiEvent :=
  match event.id, event.start, event.«end» with
  | some id, some st, some en =>
    let hasDateTime := st.dateTime.isSome && en.dateTime.isSome
    let startDate : Option Int :=
      if hasDateTime then st.dateTime.getD none
      else if st.date.isSome && en.date.isSome then st.date.getD none
      else none
    let endDate : Option Int :=
      if hasDateTime then en.dateTime.getD none
      else if st.date.isSome && en.date.isSome then
        (en.date.getD none).map (fun t => t - 1000)
      else none
    match startDate, endDate with
    | some s, some e =>
      if e < s then none
      else
        some { id := id, summary := event.summary,
               start := some s, «end» := some e,
               color := event.color, isAllDay := !hasDateTime }
    | _, _ => none
  | _, _, _ => none

/-- A raw API event whose dates parse but whose end precedes its start. -/
def badApiEvent : ApiEvent :=
  { id := "bad", summary := "bad", start := some (DAY_MS * 2),
    «end» := some DAY_MS, color := "#fff" }

/-- The calendar event `parseApiEvent` produces for `badApiEvent`. -/
def badCalendarEvent : CalendarEvent :=
  { id := "bad", summary := "bad", start := DAY_MS * 2, «end» := DAY_MS,
    color := "#fff" }

/-- C8 counterexample: `parseApiEvent` does not reject `end < start` — a
raw event with parseable dates but end before start is parsed successfully
and reaches the event list handed to the core. -/
theorem parseApiEvent_no_order_check :
    parseApiEvent badApiEvent = some badCalendarEvent ∧
    badCalendarEvent.«end» < badCalendarEvent.start ∧
    badCalendarEvent ∈ loadEvents [badApiEvent] := by decide

/-- C8 (amended): `parseApiEvent` returns `null` exactly when `start` or
`end` is unparseable; the `end < start` rejection lives upstream in the
Google mapping layer's `mapGoogleEvent`, so events flowing through that
path satisfy `start ≤ end`, but `parseApiEvent` itself passes events with
`end < start` through. -/
theorem parseApiEvent_characterisation :
    (∀ raw : ApiEvent, parseApiEvent raw = none ↔
      (raw.start = none ∨ raw.«end» = none)) ∧
    (∀ (g : GoogleCalendarEvent) (raw : ApiEvent),
      mapGoogleEvent g = some raw →
      ∃ s e : Int, raw.start = some s ∧ raw.«end» = some e ∧ s ≤ e) ∧
    (∀ (g : GoogleCalendarEvent) (raw : ApiEvent) (ev : CalendarEvent),
      mapGoogleEvent g = some raw → parseApiEvent raw = some ev →
      ev.start ≤ ev.«end») := by
  have hmap : ∀ (g : GoogleCalendarEvent) (raw : ApiEvent),
      mapGoogleEvent g = some raw →
      ∃ s e : Int, raw.start = some s ∧ raw.«end» = some e ∧ s ≤ e := by
    intro g raw h
    unfold mapGoogleEvent at h
    rcases g with ⟨gid, gsum, gstart, gend, gcolor⟩
    cases gid with
    | none => exact Option.noConfusion h
    | some id =>
      cases gstart with
      | none => exact Option.noConfusion h
      | some st =>
        cases gend with
        | none => exact Option.noConfusion h
        | some en =>
          simp only at h
          rcases hs : (if st.dateTime.isSome && en.dateTime.isSome then
              st.dateTime.getD none
            else if st.date.isSome && en.date.isSome then st.date.getD none
            else none) with _ | s
          · rw [hs] at h
            exact Option.noConfusion h
          · rcases he : (if st.dateTime.isSome && en.dateTime.isSome then
                en.dateTime.getD none
              else if st.date.isSome && en.date.isSome then
                (en.date.getD none).map (fun t => t - 1000)
              else none) with _ | e
            · rw [hs, he] at h
              exact Option.noConfusion h
            · rw [hs, he] at h
              dsimp only at h
              by_cases hlt : e < s
              · rw [if_pos hlt] at h
                exact Option.noConfusion h
              · rw [if_neg hlt] at h
                rw [Option.some.injEq] at h
                subst h
                exact ⟨s, e, rfl, rfl, by omega⟩
  refine ⟨?_, hmap, ?_⟩
  · intro raw
    unfold parseApiEvent
    rcases hs : raw.start with _ | s <;> rcases he : raw.«end» with _ | e <;>
      simp
  · intro g raw ev hg hp
    obtain ⟨s, e, hrs, hre, hse⟩ := hmap g raw hg
    unfold parseApiEvent at hp
    rw [hrs, hre] at hp
    rw [Option.some.injEq] at hp
    subst hp
    exact hse

/-- Witness for C8 (amended) at a concrete Google event. -/
theorem parseApiEvent_characterisation_witness :
    mapGoogleEvent
        { id := some "g", summary := "G",
          start := some { dateTime := some (some 1000), date := none },
          «end» := some { dateTime := some (some 5000), date := none },
          color := "#abc" } =
      some { id := "g", summary := "G", start := some 1000,
             «end» := some 5000, color := "#abc", isAllDay := false } ∧
    (∃ s e : Int,
      (some 1000 : Option Int) = some s ∧ (some 5000 : Option Int) = some e ∧
        s ≤ e) :=
  ⟨by decide,
    by
      have h := parseApiEvent_characterisation.2.1
        { id := some "g", summary := "G",
          start := some { dateTime := some (some 1000), date := none },
          «end» := some { dateTime := some (some 5000), date := none },
          color := "#abc" }
        { id := "g", summary := "G", start := some 1000,
          «end» := some 5000, color := "#abc", isAllDay := false }
        (by decide)
      exact h⟩

/-! ### C9: totality on well-formed input -/

theorem get?_eq_some_getD (l : List Int) (n : Nat) (h : n < l.length) :
    l.get? n = some (l.getD n 0) := by
  rw [List.get?_eq_getElem?, List.getD_eq_getElem?_getD,
    List.getElem?_eq_getElem h]
  rfl

theorem getD_mem (l : List Int) (n : Nat) (h : n < l.length) :
    l.getD n 0 ∈ l := by
  rw [List.getD_eq_getElem?_getD, List.getElem?_eq_getElem h]
  exact List.getElem_mem h

theorem countsLoopChecked_eq (weekKeys : List Int) (bars : List WeekBar)
    (idxs : List Nat) :
    ∀ acc : Rec Int × Rec Int × Rec (List CalendarEvent),
      (∀ j ∈ idxs, j < weekKeys.length) →
      (∀ k : Int, k ∈ weekKeys → (acc.2.2 k).isSome) →
      countsLoopChecked weekKeys bars acc idxs =
        some (idxs.foldl (countsStep weekKeys bars) acc) := by
  induction idxs with
  | nil => intro acc _ _; rfl
  | cons j rest ih =>
    intro acc hlen hdom
    have hj : j < weekKeys.length := hlen j (by simp)
    have hget : weekKeys.get? j = some (weekKeys.getD j 0) :=
      get?_eq_some_getD _ _ hj
    have hkmem : weekKeys.getD j 0 ∈ weekKeys := getD_mem _ _ hj
    obtain ⟨bucket, hb⟩ := Option.isSome_iff_exists.mp (hdom _ hkmem)
    have hstep : countsStep weekKeys bars acc j =
        (recSet acc.1 (weekKeys.getD j 0)
          (((bars.filter (fun bar => bar.startIdx ≤ (j : Int) &&
            bar.endIdx ≥ (j : Int))).length : Int)),
         recSet acc.2.1 (weekKeys.getD j 0)
          (max 0 (((bars.filter (fun bar => bar.startIdx ≤ (j : Int) &&
            bar.endIdx ≥ (j : Int))).length : Int) - (MAX_VISIBLE_BARS : Int))),
         recSet acc.2.2 (weekKeys.getD j 0)
          (bucket.insertionSort eventStartLe)) := by
      unfold countsStep
      rw [hb]
    simp only [countsLoopChecked, List.foldl_cons]
    rw [hget]
    dsimp only
    rw [hb]
    dsimp only
    rw [hstep]
    apply ih
    · intro j' hj'
      exact hlen j' (by simp [hj'])
    · intro k hk
      dsimp only
      by_cases hkk : k = weekKeys.getD j 0
      · subst hkk
        rw [recSet_self]
        rfl
      · rw [recSet_ne _ _ _ _ hkk]
        exact hdom k hk

/-- C9: for a week of exactly seven dates and well-formed events,
`buildWeekRenderData` is total — the version with every implicit JavaScript
runtime check made explicit reaches no failure state and returns exactly
the total function's result. -/
theorem buildWeekRenderData_total (week : List Int)
    (events : List CalendarEvent) (hlen : week.length = 7)
    (hwf : ∀ e ∈ events, e.start ≤ e.«end») :
    buildWeekRenderDataChecked week events =
      some (buildWeekRenderData week events) := by
  have h0 : week.get? 0 = some (week.getD 0 0) :=
    get?_eq_some_getD week 0 (by omega)
  have h6 : week.get? 6 = some (week.getD 6 0) :=
    get?_eq_some_getD week 6 (by omega)
  have hdom : ∀ k : Int, k ∈ week.map formatDateKey →
      (((classifyEvents (startOfDay (week.getD 0 0))
        (startOfDay (week.getD 6 0)) (recInit (week.map formatDateKey) [])
        events).1 k)).isSome := by
    intro k hk
    show ((events.foldl (classifyStep (startOfDay (week.getD 0 0))
      (startOfDay (week.getD 6 0))) (recInit (week.map formatDateKey) [],
      ([] : List Placement))).1 k).isSome
    rw [classifyFold_fst]
    unfold recInit
    rw [if_pos hk]
    rfl
  unfold buildWeekRenderDataChecked
  rw [h0, h6]
  dsimp only
  rw [countsLoopChecked_eq (week.map formatDateKey) _ _ _
    (fun j hj => by simpa using hj) hdom]
  rfl

/-- Witness for C9 at a concrete week and event list. -/
theorem buildWeekRenderData_total_witness :
    sampleWeek.length = 7 ∧
    (∀ e ∈ [sampleShort, sampleLongA, sampleLongB],
      e.start ≤ e.«end») ∧
    buildWeekRenderDataChecked sampleWeek
        [sampleShort, sampleLongA, sampleLongB] =
      some (buildWeekRenderData sampleWeek
        [sampleShort, sampleLongA, sampleLongB]) :=
  ⟨by decide, by decide,
    buildWeekRenderData_total sampleWeek [sampleShort, sampleLongA, sampleLongB]
      (by decide) (by decide)⟩

/-! ### C10: `toRgba` and its module-level cache -/

/-- Hexadecimal-digit test, as in the source's regular expression
`[0-9a-fA-F]`. -/
def isHexDigitChar (c : Char) : Bool :=
  c.isDigit || ('a' ≤ c && c ≤ 'f') || ('A' ≤ c && c ≤ 'F')

/-- Value of one hexadecimal digit (`Number.parseInt(_, 16)` digit step). -/
def hexDigitVal (c : Char) : Nat :=
  if c.isDigit then c.toNat - '0'.toNat
  else if 'a' ≤ c && c ≤ 'f' then c.toNat - 'a'.toNat + 10
  else c.toNat - 'A'.toNat + 10

/-- `color.replace('#', '')`: removes the first occurrence of `#`. -/
def removeFirstHash : List Char → List Char
  | [] => []
  | c :: rest => if c = '#' then rest else c :: removeFirstHash rest

/-- `String.prototype.trim`. -/
def trimChars (cs : List Char) : List Char :=
  ((cs.dropWhile Char.isWhitespace).reverse.dropWhile Char.isWhitespace).reverse

/-- `color.replace('#', '').trim()` from the source. -/
def normalizeColor (color : String) : List Char :=
  trimChars (removeFirstHash color.data)

/-- The source's validity regex: 3, 4, 6 or 8 hexadecimal digits. -/
def isValidHexToken (cs : List Char) : Bool :=
  (cs.length == 3 || cs.length == 4 || cs.length == 6 || cs.length == 8) &&
    cs.all isHexDigitChar

/-- The source's expansion: double each digit of a 3- or 4-digit token,
then append `ff` when 6 digits long. -/
def expandHex (cs : List Char) : List Char :=
  if (if cs.length == 3 || cs.length == 4 then
        (cs.map (fun c => [c, c])).flatten
      else cs).length == 6 then
    (if cs.length == 3 || cs.length == 4 then
      (cs.map (fun c => [c, c])).flatten
    else cs) ++ ['f', 'f']
  else
    if cs.length == 3 || cs.length == 4 then
      (cs.map (fun c => [c, c])).flatten
    else cs

/-- Decimal digits of `n`, least significant first, with structural fuel
(`fuel ≥ n` suffices). -/
def natDigitChars : Nat → Nat → List Char
  | _, 0 => []
  | 0, _ + 1 => []
  | fuel + 1, n + 1 =>
    Nat.digitChar ((n + 1) % 10) :: natDigitChars fuel ((n + 1) / 10)

/-- Decimal rendering of a natural number, modelling JavaScript's
number-to-string conversion (an injective digit string). -/
def natStr (n : Nat) : String :=
  if n = 0 then String.mk ['0'] else String.mk ((natDigitChars n n).reverse)

/-- Decimal rendering of an integer. -/
def intStr (i : Int) : String :=
  if i < 0 then String.mk ('-' :: (natDigitChars i.natAbs i.natAbs).reverse)
  else natStr i.natAbs

/-- Rendering of a rational number, modelling JavaScript's number
formatting by an injective string free of the characters `|`: the cache
behaviour only depends on injectivity, not on the decimal format. -/
def ratStr (q : ℚ) : String := intStr q.num ++ "/" ++ natStr q.den

/-- The `rgba(r, g, b, a)` result string of the source. -/
def rgbaString (red green blue : Nat) (alpha : ℚ) : String :=
  "rgba(" ++ natStr red ++ ", " ++ natStr green ++ ", " ++ natStr blue ++
    ", " ++ ratStr alpha ++ ")"

/-- Value of two hexadecimal digits (`Number.parseInt(full.slice(i, i+2), 16)`). -/
def hexPair (c1 c2 : Char) : Nat := 16 * hexDigitVal c1 + hexDigitVal c2

/-- The cache-free body of `toRgba`: validate, expand, parse the channel
pairs, combine the embedded alpha with the argument and clamp to `[0, 1]`;
invalid tokens yield the fixed fallback colour. -/
def computeRgba (color : String) (alpha : ℚ) : String :=
  if isValidHexToken (normalizeColor color) then
    rgbaString
      (hexPair ((expandHex (normalizeColor color)).getD 0 '0')
        ((expandHex (normalizeColor color)).getD 1 '0'))
      (hexPair ((expandHex (normalizeColor color)).getD 2 '0')
        ((expandHex (normalizeColor color)).getD 3 '0'))
      (hexPair ((expandHex (normalizeColor color)).getD 4 '0')
        ((expandHex (normalizeColor color)).getD 5 '0'))
      (max 0 (min 1 (alpha *
        ((hexPair ((expandHex (normalizeColor color)).getD 6 '0')
          ((expandHex (normalizeColor color)).getD 7 '0') : ℚ) / 255))))
  else
    "rgba(123, 150, 83, " ++ ratStr alpha ++ ")"

/-- The module-level `RGBA_CACHE` map, as an association list with
most-recent entries first. -/
def RgbaCache := List (String × String)

/-- `RGBA_CACHE.get`. -/
def cacheGet (cache : RgbaCache) (key : String) : Option String :=
  match cache with
  | [] => none
  | (k, v) :: rest => if k = key then some v else cacheGet rest key

/-- `RGBA_CACHE.set` (later entries shadow earlier ones). -/
def cacheSet (cache : RgbaCache) (key v : String) : RgbaCache :=
  (key, v) :: cache

/-- The cache key `` `${color}|${alpha}` `` of the source. -/
def rgbaCacheKey (color : String) (alpha : ℚ) : String :=
  color ++ "|" ++ ratStr alpha

/-- `toRgba` in the source, with the cache passed explicitly: return the
cached value when present and truthy (a cached empty string is falsy and
recomputed), otherwise compute, store and return. -/
def toRgba (color : String) (alpha : ℚ) (cache : RgbaCache) :
    String × RgbaCache :=
  match cacheGet cache (rgbaCacheKey color alpha) with
  | some cached =>
    if cached ≠ "" then (cached, cache)
    else (computeRgba color alpha,
      cacheSet cache (rgbaCacheKey color alpha) (computeRgba color alpha))
  | none =>
    (computeRgba color alpha,
      cacheSet cache (rgbaCacheKey color alpha) (computeRgba color alpha))

/-- The cache state after a sequence of `toRgba` calls starting from the
module-load state (an empty cache). -/
def runRgbaCalls (calls : List (String × ℚ)) : RgbaCache :=
  calls.foldl (fun cache c => (toRgba c.1 c.2 cache).2) []

/-- Every entry of the cache is the pure value of some key. -/
def CacheConsistent (cache : RgbaCache) : Prop :=
  ∀ key v, cacheGet cache key = some v →
    ∃ c a, key = rgbaCacheKey c a ∧ v = computeRgba c a

theorem digitChar_inj_fin : ∀ a b : Fin 10,
    Nat.digitChar a.val = Nat.digitChar b.val → a = b := by decide

theorem digitChar_inj (a b : Nat) (ha : a < 10) (hb : b < 10)
    (h : Nat.digitChar a = Nat.digitChar b) : a = b :=
  congrArg Fin.val (digitChar_inj_fin ⟨a, ha⟩ ⟨b, hb⟩ h)

theorem digitChar_isDigit_fin : ∀ a : Fin 10,
    (Nat.digitChar a.val).isDigit = true := by decide

theorem digitChar_isDigit (a : Nat) (ha : a < 10) :
    (Nat.digitChar a).isDigit = true := digitChar_isDigit_fin ⟨a, ha⟩

theorem natDigitChars_eq_digits :
    ∀ fuel n : Nat, n ≤ fuel →
      natDigitChars fuel n = (Nat.digits 10 n).map Nat.digitChar := by
  intro fuel
  induction fuel with
  | zero =>
    intro n hn
    interval_cases n
    simp [natDigitChars]
  | succ fuel ih =>
    intro n hn
    match n with
    | 0 => simp [natDigitChars]
    | m + 1 =>
      rw [show natDigitChars (fuel + 1) (m + 1) =
        Nat.digitChar ((m + 1) % 10) :: natDigitChars fuel ((m + 1) / 10)
        from rfl]
      rw [Nat.digits_def' (by norm_num : (1 : Nat) < 10) (Nat.succ_pos m)]
      rw [List.map_cons]
      rw [ih ((m + 1) / 10) (by
        have := Nat.div_lt_self (Nat.succ_pos m) (by norm_num : (1 : Nat) < 10)
        omega)]

theorem map_digitChar_inj :
    ∀ l1 l2 : List Nat, (∀ x ∈ l1, x < 10) → (∀ x ∈ l2, x < 10) →
      l1.map Nat.digitChar = l2.map Nat.digitChar → l1 = l2 := by
  intro l1
  induction l1 with
  | nil =>
    intro l2 _ _ h
    cases l2 with
    | nil => rfl
    | cons b t => exact absurd h (by simp)
  | cons a t ih =>
    intro l2 h1 h2 h
    cases l2 with
    | nil => exact absurd h (by simp)
    | cons b t2 =>
      simp only [List.map_cons, List.cons.injEq] at h
      have ha := h1 a (by simp)
      have hb := h2 b (by simp)
      rw [digitChar_inj a b ha hb h.1,
        ih t2 (fun x hx => h1 x (by simp [hx])) (fun x hx => h2 x (by simp [hx]))
          h.2]

theorem natChars_all_digit (n : Nat) :
    ∀ c ∈ (natDigitChars n n).reverse, c.isDigit = true := by
  intro c hc
  rw [natDigitChars_eq_digits n n le_rfl] at hc
  rw [List.mem_reverse, List.mem_map] at hc
  obtain ⟨d, hd, rfl⟩ := hc
  exact digitChar_isDigit d (Nat.digits_lt_base (by norm_num) hd)

theorem natStr_all_digit (n : Nat) :
    ∀ c ∈ (natStr n).data, c.isDigit = true := by
  unfold natStr
  split_ifs with h
  · intro c hc
    simp only [String.data] at hc
    simp at hc
    subst hc
    decide
  · exact natChars_all_digit n

theorem natStr_ne_nil (n : Nat) : (natStr n).data ≠ [] := by
  unfold natStr
  split_ifs with h
  · simp
  · intro hc
    simp only [String.data] at hc
    rw [List.reverse_eq_nil_iff] at hc
    rw [natDigitChars_eq_digits n n le_rfl, List.map_eq_nil_iff,
      Nat.digits_eq_nil_iff_eq_zero] at hc
    exact h hc

theorem digits_singleton_zero (n : Nat) (h : Nat.digits 10 n = [0]) : n = 0 := by
  have h2 := Nat.ofDigits_digits 10 n
  rw [h] at h2
  simpa [Nat.ofDigits] using h2.symm

theorem natStr_inj (m n : Nat) (h : natStr m = natStr n) : m = n := by
  unfold natStr at h
  by_cases hm : m = 0 <;> by_cases hn : n = 0
  · omega
  · rw [if_pos hm, if_neg hn] at h
    exfalso
    have hd : ['0'] = (natDigitChars n n).reverse := congrArg String.data h
    rw [natDigitChars_eq_digits n n le_rfl] at hd
    rcases hds : Nat.digits 10 n with _ | ⟨d, rest⟩
    · rw [hds] at hd
      simp at hd
    · rw [hds] at hd
      cases rest with
      | nil =>
        simp only [List.map_cons, List.map_nil, List.reverse_singleton,
          List.cons.injEq] at hd
        have hdlt : d < 10 := Nat.digits_lt_base (by norm_num)
          (by rw [hds]; simp)
        have hd0 : d = 0 := digitChar_inj d 0 hdlt (by norm_num)
          (by rw [← hd.1]; rfl)
        rw [hd0] at hds
        exact hn (digits_singleton_zero n hds)
      | cons d2 rest2 =>
        have hlen : (['0'] : List Char).length =
            ((d :: d2 :: rest2).map Nat.digitChar).reverse.length :=
          congrArg List.length hd
        simp at hlen
  · rw [if_neg hm, if_pos hn] at h
    exfalso
    have hd : (natDigitChars m m).reverse = ['0'] := congrArg String.data h
    rw [natDigitChars_eq_digits m m le_rfl] at hd
    rcases hds : Nat.digits 10 m with _ | ⟨d, rest⟩
    · rw [hds] at hd
      simp at hd
    · rw [hds] at hd
      cases rest with
      | nil =>
        simp only [List.map_cons, List.map_nil, List.reverse_singleton,
          List.cons.injEq] at hd
        have hdlt : d < 10 := Nat.digits_lt_base (by norm_num)
          (by rw [hds]; simp)
        have hd0 : d = 0 := digitChar_inj d 0 hdlt (by norm_num)
          (by rw [hd.1]; rfl)
        rw [hd0] at hds
        exact hm (digits_singleton_zero m hds)
      | cons d2 rest2 =>
        have hlen : ((d :: d2 :: rest2).map Nat.digitChar).reverse.length =
            (['0'] : List Char).length := congrArg List.length hd
        simp at hlen
  · rw [if_neg hm, if_neg hn] at h
    have hd : (natDigitChars m m).reverse = (natDigitChars n n).reverse :=
      congrArg String.data h
    rw [List.reverse_inj, natDigitChars_eq_digits m m le_rfl,
      natDigitChars_eq_digits n n le_rfl] at hd
    have hdm := map_digitChar_inj _ _
      (fun x hx => Nat.digits_lt_base (by norm_num) hx)
      (fun x hx => Nat.digits_lt_base (by norm_num) hx) hd
    calc m = Nat.ofDigits 10 (Nat.digits 10 m) := (Nat.ofDigits_digits 10 m).symm
    _ = Nat.ofDigits 10 (Nat.digits 10 n) := by rw [hdm]
    _ = n := Nat.ofDigits_digits 10 n

theorem natChars_inj (m n : Nat)
    (h : natDigitChars m m = natDigitChars n n) : m = n := by
  rw [natDigitChars_eq_digits m m le_rfl,
    natDigitChars_eq_digits n n le_rfl] at h
  have hd := map_digitChar_inj _ _
    (fun x hx => Nat.digits_lt_base (by norm_num) hx)
    (fun x hx => Nat.digits_lt_base (by norm_num) hx) h
  calc m = Nat.ofDigits 10 (Nat.digits 10 m) := (Nat.ofDigits_digits 10 m).symm
  _ = Nat.ofDigits 10 (Nat.digits 10 n) := by rw [hd]
  _ = n := Nat.ofDigits_digits 10 n

theorem strMk_data (l : List Char) : (String.mk l).data = l := rfl

theorem strData_append (s t : String) : (s ++ t).data = s.data ++ t.data := by
  cases s with
  | mk a =>
    cases t with
    | mk b => rfl

theorem strExt (s t : String) (h : s.data = t.data) : s = t := by
  cases s with
  | mk a =>
    cases t with
    | mk b => exact congrArg String.mk h

theorem intStr_chars (i : Int) :
    ∀ c ∈ (intStr i).data, c = '-' ∨ c.isDigit = true := by
  unfold intStr
  split_ifs with hi
  · intro c hc
    have hc2 : c ∈ '-' :: (natDigitChars i.natAbs i.natAbs).reverse := hc
    rcases List.mem_cons.mp hc2 with h | h
    · exact Or.inl h
    · exact Or.inr (natChars_all_digit i.natAbs c h)
  · intro c hc
    exact Or.inr (natStr_all_digit i.natAbs c hc)

theorem intStr_inj (i j : Int) (h : intStr i = intStr j) : i = j := by
  unfold intStr at h
  by_cases hi : i < 0 <;> by_cases hj : j < 0
  · rw [if_pos hi, if_pos hj] at h
    have hd := congrArg String.data h
    simp only [strMk_data, List.cons.injEq, List.reverse_inj] at hd
    have := natChars_inj _ _ hd.2
    omega
  · rw [if_pos hi, if_neg hj] at h
    have hd := congrArg String.data h
    rw [strMk_data] at hd
    exfalso
    have hmem : '-' ∈ (natStr j.natAbs).data := by
      rw [← hd]
      exact List.mem_cons_self _ _
    exact absurd (natStr_all_digit j.natAbs '-' hmem) (by decide)
  · rw [if_neg hi, if_pos hj] at h
    have hd := congrArg String.data h
    rw [strMk_data] at hd
    exfalso
    have hmem : '-' ∈ (natStr i.natAbs).data := by
      rw [hd]
      exact List.mem_cons_self _ _
    exact absurd (natStr_all_digit i.natAbs '-' hmem) (by decide)
  · rw [if_neg hi, if_neg hj] at h
    have := natStr_inj _ _ h
    omega

theorem append_sep_inj (sep : Char) :
    ∀ p1 p2 q1 q2 : List Char, sep ∉ p1 → sep ∉ p2 →
      p1 ++ sep :: q1 = p2 ++ sep :: q2 → p1 = p2 ∧ q1 = q2 := by
  intro p1
  induction p1 with
  | nil =>
    intro p2 q1 q2 h1 h2 h
    cases p2 with
    | nil => simpa using h
    | cons b t =>
      simp only [List.nil_append, List.cons_append, List.cons.injEq] at h
      exfalso
      refine h2 ?_
      rw [← h.1]
      exact List.mem_cons_self _ _
  | cons a t ih =>
    intro p2 q1 q2 h1 h2 h
    cases p2 with
    | nil =>
      simp only [List.cons_append, List.nil_append, List.cons.injEq] at h
      exfalso
      refine h1 ?_
      rw [h.1]
      exact List.mem_cons_self _ _
    | cons b t2 =>
      simp only [List.cons_append, List.cons.injEq] at h
      have hrec := ih t2 q1 q2 (fun hm => h1 (List.mem_cons_of_mem a hm))
        (fun hm => h2 (List.mem_cons_of_mem b hm)) h.2
      exact ⟨by rw [h.1, hrec.1], hrec.2⟩

theorem ratStr_chars (q : ℚ) :
    ∀ c ∈ (ratStr q).data, c = '-' ∨ c = '/' ∨ c.isDigit = true := by
  unfold ratStr
  intro c hc
  simp only [strData_append, List.append_assoc, List.mem_append] at hc
  rcases hc with h | h | h
  · rcases intStr_chars q.num c h with h2 | h2
    · exact Or.inl h2
    · exact Or.inr (Or.inr h2)
  · have h2 : c ∈ ['/'] := h
    rw [List.mem_singleton] at h2
    exact Or.inr (Or.inl h2)
  · exact Or.inr (Or.inr (natStr_all_digit q.den c h))

theorem ratStr_no_bar (q : ℚ) : '|' ∉ (ratStr q).data := by
  intro hmem
  rcases ratStr_chars q '|' hmem with h | h | h
  · exact absurd h (by decide)
  · exact absurd h (by decide)
  · exact absurd h (by decide)

theorem ratStr_inj (q1 q2 : ℚ) (h : ratStr q1 = ratStr q2) : q1 = q2 := by
  unfold ratStr at h
  have hd : (intStr q1.num).data ++ '/' :: (natStr q1.den).data =
      (intStr q2.num).data ++ '/' :: (natStr q2.den).data := by
    have h2 := congrArg String.data h
    simpa only [strData_append, List.append_assoc, List.singleton_append]
      using h2
  have hsplit := append_sep_inj '/' _ _ _ _
    (fun hm => by
      rcases intStr_chars q1.num '/' hm with h2 | h2
      · exact absurd h2 (by decide)
      · exact absurd h2 (by decide))
    (fun hm => by
      rcases intStr_chars q2.num '/' hm with h2 | h2
      · exact absurd h2 (by decide)
      · exact absurd h2 (by decide)) hd
  have hnum := intStr_inj _ _ (strExt _ _ hsplit.1)
  have hden := natStr_inj _ _ (strExt _ _ hsplit.2)
  exact Rat.ext hnum hden

theorem rgbaCacheKey_inj (c1 c2 : String) (a1 a2 : ℚ)
    (h : rgbaCacheKey c1 a1 = rgbaCacheKey c2 a2) : c1 = c2 ∧ a1 = a2 := by
  unfold rgbaCacheKey at h
  have hd : c1.data ++ '|' :: (ratStr a1).data =
      c2.data ++ '|' :: (ratStr a2).data := by
    have h2 := congrArg String.data h
    simpa only [strData_append, List.append_assoc, List.singleton_append]
      using h2
  have hr : (ratStr a1).data.reverse ++ '|' :: c1.data.reverse =
      (ratStr a2).data.reverse ++ '|' :: c2.data.reverse := by
    have h2 := congrArg List.reverse hd
    simpa only [List.reverse_append, List.reverse_cons, List.append_assoc,
      List.singleton_append] using h2
  have hsplit := append_sep_inj '|' _ _ _ _
    (fun hm => ratStr_no_bar a1 (List.mem_reverse.mp hm))
    (fun hm => ratStr_no_bar a2 (List.mem_reverse.mp hm)) hr
  constructor
  · exact strExt _ _ (List.reverse_inj.mp hsplit.2)
  · exact ratStr_inj a1 a2 (strExt _ _ (List.reverse_inj.mp hsplit.1))

theorem toRgba_fst (color : String) (alpha : ℚ) (cache : RgbaCache)
    (h : CacheConsistent cache) :
    (toRgba color alpha cache).1 = computeRgba color alpha := by
  cases hg : cacheGet cache (rgbaCacheKey color alpha) with
  | none => simp only [toRgba, hg]
  | some cached =>
    simp only [toRgba, hg]
    split_ifs with hne
    · obtain ⟨c, a, hk, hv⟩ := h _ _ hg
      obtain ⟨hc, ha⟩ := rgbaCacheKey_inj _ _ _ _ hk
      rw [hv, ← hc, ← ha]
    · rfl

theorem toRgba_consistent (color : String) (alpha : ℚ) (cache : RgbaCache)
    (h : CacheConsistent cache) :
    CacheConsistent (toRgba color alpha cache).2 := by
  cases hg : cacheGet cache (rgbaCacheKey color alpha) with
  | none =>
    simp only [toRgba, hg]
    intro key v hkv
    simp only [cacheSet, cacheGet] at hkv
    split_ifs at hkv with heq
    · exact ⟨color, alpha, heq.symm, (Option.some.inj hkv).symm⟩
    · exact h key v hkv
  | some cached =>
    simp only [toRgba, hg]
    split_ifs with hne
    · exact h
    · intro key v hkv
      simp only [cacheSet, cacheGet] at hkv
      split_ifs at hkv with heq
      · exact ⟨color, alpha, heq.symm, (Option.some.inj hkv).symm⟩
      · exact h key v hkv

theorem cacheConsistent_nil : CacheConsistent ([] : RgbaCache) := by
  intro key v hkv
  simp only [cacheGet] at hkv
  exact Option.noConfusion hkv

theorem runRgbaCalls_consistent (calls : List (String × ℚ)) :
    CacheConsistent (runRgbaCalls calls) := by
  unfold runRgbaCalls
  have main : ∀ (cs : List (String × ℚ)) (cache : RgbaCache),
      CacheConsistent cache →
      CacheConsistent
        (cs.foldl (fun cache c => (toRgba c.1 c.2 cache).2) cache) := by
    intro cs
    induction cs with
    | nil =>
      intro cache h
      exact h
    | cons c t ih =>
      intro cache h
      exact ih _ (toRgba_consistent c.1 c.2 cache h)
  exact main calls [] cacheConsistent_nil

/-- C10: `toRgba` is semantically transparent with respect to the
module-level `RGBA_CACHE`: after any sequence of prior calls starting from
the empty module-load cache, its result equals the cache-free pure
computation of its two arguments; and whenever the colour token is not 3,
4, 6 or 8 hexadecimal digits after stripping `#` (and trimming), the
result is the fallback string `rgba(123, 150, 83, alpha)`. -/
theorem toRgba_cache_transparent :
    (∀ (calls : List (String × ℚ)) (color : String) (alpha : ℚ),
      (toRgba color alpha (runRgbaCalls calls)).1 =
        computeRgba color alpha) ∧
    (∀ (calls : List (String × ℚ)) (color : String) (alpha : ℚ),
      isValidHexToken (normalizeColor color) = false →
      (toRgba color alpha (runRgbaCalls calls)).1 =
        "rgba(123, 150, 83, " ++ ratStr alpha ++ ")") := by
  constructor
  · intro calls color alpha
    exact toRgba_fst color alpha _ (runRgbaCalls_consistent calls)
  · intro calls color alpha hval
    rw [toRgba_fst color alpha _ (runRgbaCalls_consistent calls)]
    unfold computeRgba
    rw [hval]
    simp

theorem toRgba_cache_transparent_witness :
    (toRgba "#3a7" (1/2) (runRgbaCalls [("#3a7", 1/2), ("zz", 1/4)])).1 =
      computeRgba "#3a7" (1/2) ∧
    isValidHexToken (normalizeColor "zz") = false ∧
    (toRgba "zz" (1/4) (runRgbaCalls [("#3a7", 1/2)])).1 =
      "rgba(123, 150, 83, " ++ ratStr (1/4) ++ ")" :=
  ⟨toRgba_cache_transparent.1 [("#3a7", 1/2), ("zz", 1/4)] "#3a7" (1/2),
    by decide,
    toRgba_cache_transparent.2 [("#3a7", 1/2)] "zz" (1/4) (by decide)⟩


end Planner